import Mathlib

/-!
Verification of the workflow-builder repository's execution core:
a shallow embedding of the step-logging wrapper (`lib/steps/step-handler`),
the server-side log store functions (`lib/workflow-logger`), the
integration credential module (`lib/integrations-supabase.ts`), and — where
the repository files are not available — models of the workflow executor,
the interpolation engine and the redaction helper built from the design
document.

JavaScript runtime values are embedded as the inductive type `JsValue`;
machine strings are Lean `String`s (worked on as `List Char` where the
code scans character by character); fallible operations return
`Option`/`Except`; network and database effects are made explicit by
passing the effectful collaborator as a function argument and by returning
the list of emitted requests alongside the result (writer style).
-/

namespace WorkflowBuilder

/-- Model of a JavaScript runtime value (the payloads that flow through
node configs, step results and log entries). `undefined` and `null` are
distinguished, as the source distinguishes them. -/
inductive JsValue where
  | null : JsValue
  | undefined : JsValue
  | bool : Bool → JsValue
  | num : Int → JsValue
  | str : String → JsValue
  | obj : List (String × JsValue) → JsValue
  | arr : List JsValue → JsValue
deriving Repr, Inhabited

/-- JavaScript truthiness of a value (`Boolean(v)`). -/
def jsTruthy : JsValue → Bool
  | .null => false
  | .undefined => false
  | .bool b => b
  | .num n => n != 0
  | .str s => s ≠ ""
  | .obj _ => true
  | .arr _ => true

mutual

/-- JavaScript `String(v)` coercion, as used when a template reference is
substituted into surrounding text. -/
def jsToString : JsValue → String
  | .null => "null"
  | .undefined => "undefined"
  | .bool true => "true"
  | .bool false => "false"
  | .num n => toString n
  | .str s => s
  | .obj _ => "[object Object]"
  | .arr es => jsToStringList es

/-- `String(array)` joins the stringified elements with commas. -/
def jsToStringList : List JsValue → String
  | [] => ""
  | [v] => jsToString v
  | v :: rest => jsToString v ++ "," ++ jsToStringList rest

end

/-- Modelled from the spec: `lib/utils/redact`'s `redactSensitiveData` is
not among the provided sources (only its importers are).  Per the design
document, credential/secret fields must never appear in a persisted log:
the helper masks values stored under sensitive keys and recurses into
nested objects and arrays, leaving primitives untouched. -/
def sensitiveKeys : List String :=
  ["apiKey", "api_key", "apikey", "token", "accessToken", "refreshToken",
   "secret", "password", "credential", "credentials", "authorization"]

mutual

/-- Modelled from the spec: recursive masking of sensitive fields
(see `sensitiveKeys`). -/
def redactSensitiveData : JsValue → JsValue
  | .obj fields => .obj (redactFields fields)
  | .arr es => .arr (redactList es)
  | v => v

def redactFields : List (String × JsValue) → List (String × JsValue)
  | [] => []
  | (k, v) :: rest =>
    (k, if sensitiveKeys.contains k then JsValue.str "[REDACTED]"
        else redactSensitiveData v) :: redactFields rest

def redactList : List JsValue → List JsValue
  | [] => []
  | v :: rest => redactSensitiveData v :: redactList rest

end

/-! ## Step-logging wrapper (`lib/steps/step-handler`, two variants in the source)

The wrapper persists a log entry over HTTP (`fetch` to `/api/workflow-log`).
The network is modelled by a function `fetchFn : LogRequest → FetchOutcome`
supplied by the caller; a thrown exception (network error, or
`response.json()` failing) is the `threw` outcome.  Each function returns
the list of requests it transmitted alongside its result. -/

/-- Context identifying the node invocation being logged
(`StepContext` in the source; `executionId` is optional). -/
structure StepContext where
  executionId : Option String
  nodeId : String
  nodeName : String
  nodeType : String
deriving Repr

/-- `{ logId, startTime }` as returned by `logStepStart`. -/
structure LogInfo where
  logId : String
  startTime : Nat
deriving Repr, DecidableEq

/-- A request body POSTed to `/api/workflow-log`: either an
`action: "start"` or an `action: "complete"` payload. -/
inductive LogRequest where
  | start (executionId nodeId nodeName nodeType : String) (input : JsValue)
  | complete (logId : String) (startTime : Nat) (status : String)
      (output : JsValue) (error : Option String)
deriving Repr

/-- Outcome of one `fetch` call: the call threw (network failure, or the
subsequent `response.json()` threw), or returned a response with `ok` flag
and the parsed `logId`/`startTime` fields of its JSON body. -/
inductive FetchOutcome where
  | threw
  | resp (ok : Bool) (logId : Option String) (startTime : Option Nat)
deriving Repr

/-- JavaScript `v || d` for an optional string field (`result.logId || ""`):
a missing or empty (falsy) value falls back to the default. -/
def jsOrStr (v : Option String) (d : String) : String :=
  match v with
  | some s => if s = "" then d else s
  | none => d

/-- JavaScript `v || d` for an optional numeric field
(`result.startTime || Date.now()`). -/
def jsOrNat (v : Option Nat) (d : Nat) : Nat :=
  match v with
  | some t => if t = 0 then d else t
  | none => d

/-- `!context?.executionId`: true when the context is absent, or its
`executionId` is absent or the empty string. -/
def noExecutionId : Option StepContext → Bool
  | none => true
  | some ctx =>
    match ctx.executionId with
    | none => true
    | some eid => eid = ""

/-- `logStepStart` (`lib/steps/step-handler` part_010 lines 26-68): posts a
`start` entry with the redacted input; on missing execution id it does not
transmit; on a thrown fetch, a non-ok response, or missing body fields it
falls back to an empty `logId` and the current time (`Date.now()` is the
`now` argument). -/
def logStepStart (fetchFn : LogRequest → FetchOutcome) (now : Nat)
    (context : Option StepContext) (input : JsValue) :
    LogInfo × List LogRequest :=
  match context with
  | none => (⟨"", now⟩, [])
  | some ctx =>
    match ctx.executionId with
    | none => (⟨"", now⟩, [])
    | some eid =>
      if eid = "" then (⟨"", now⟩, [])
      else
        let req := LogRequest.start eid ctx.nodeId ctx.nodeName ctx.nodeType
          (redactSensitiveData input)
        match fetchFn req with
        | .threw => (⟨"", now⟩, [req])
        | .resp ok logId startTime =>
          if ok then (⟨jsOrStr logId "", jsOrNat startTime now⟩, [req])
          else (⟨"", now⟩, [req])

/-- `logStepComplete` (`lib/steps/step-handler` part_010 lines 74-104):
with an empty `logId` nothing is transmitted; otherwise a `complete` entry
with the redacted output is posted, and any fetch failure is swallowed
(the function has no failure result). -/
def logStepComplete (fetchFn : LogRequest → FetchOutcome)
    (logInfo : LogInfo) (status : String) (output : JsValue)
    (error : Option String) : List LogRequest :=
  if logInfo.logId = "" then []
  else
    let req := LogRequest.complete logInfo.logId logInfo.startTime status
      (redactSensitiveData output) error
    let _ := fetchFn req
    [req]

/-- `isErrorResult` check inside the wrapper:
`result && typeof result === "object" && "success" in result &&
result.success === false`.  Only an object can pass (it is truthy and of
`typeof` object; `null` is falsy; arrays have no `success` property), and
the `success` field must be exactly boolean `false`. -/
def isErrorResult (v : JsValue) : Bool :=
  match v with
  | .obj fields =>
    match fields.find? (fun kv => kv.1 == "success") with
    | some kv =>
      match kv.2 with
      | .bool false => true
      | _ => false
    | none => false
  | _ => false

/-- `errorResult.error || "Step execution failed"`: the `error` field of
the result when it is a non-empty (truthy) string. -/
def errorFieldOf (v : JsValue) : Option String :=
  match v with
  | .obj fields =>
    match fields.find? (fun kv => kv.1 == "error") with
    | some kv =>
      match kv.2 with
      | .str s => if s = "" then none else some s
      | _ => none
    | none => none
  | _ => none

/-- The resolved behaviour of one wrapped step invocation: the value the
wrapper returns (or re-throws), the status it passed to the completion
logger, and every request it transmitted to the log store. -/
structure WrapOutcome where
  result : Except String JsValue
  completeStatus : String
  transmitted : List LogRequest
deriving Repr

/-- `withStepLogging` (`lib/steps/step-handler` part_010 lines 119-155).
The step logic itself is embedded as its outcome: `Except.error msg`
models a thrown exception whose extracted message is `msg`
(`error instanceof Error ? error.message : "Unknown error"`), and
`Except.ok v` a returned value.  The wrapper logs start, runs the step,
logs completion with status `error` exactly when the result is a
`success: false` object, re-logs with the error message and re-throws when
the step threw, and otherwise logs `success`. -/
def withStepLogging (fetchFn : LogRequest → FetchOutcome) (now : Nat)
    (context : Option StepContext) (input : JsValue)
    (stepLogic : Except String JsValue) : WrapOutcome :=
  let startRes := logStepStart fetchFn now context input
  let logInfo := startRes.1
  match stepLogic with
  | .ok result =>
    if isErrorResult result then
      let msg := (errorFieldOf result).getD "Step execution failed"
      { result := .ok result, completeStatus := "error",
        transmitted := startRes.2 ++
          logStepComplete fetchFn logInfo "error" result (some msg) }
    else
      { result := .ok result, completeStatus := "success",
        transmitted := startRes.2 ++
          logStepComplete fetchFn logInfo "success" result none }
  | .error e =>
    { result := .error e, completeStatus := "error",
      transmitted := startRes.2 ++
        logStepComplete fetchFn logInfo "error" JsValue.undefined (some e) }

/-- `stepHandler` (the second wrapper variant, part_009 lines 108-160):
identical logging protocol, but the context argument is not optional (its
`executionId` field still is).  Its private `logStepStart`/`logStepComplete`
duplicate part_010's, so the embedding reuses them with a present context. -/
def stepHandler (fetchFn : LogRequest → FetchOutcome) (now : Nat)
    (stepOutcome : Except String JsValue) (input : JsValue)
    (context : StepContext) : WrapOutcome :=
  withStepLogging fetchFn now (some context) input stepOutcome

/-- The condition under which the wrapper treats a step as failed: the
step threw, or it returned an object whose `success` field is exactly
boolean `false`. -/
def isFailureOutcome (stepLogic : Except String JsValue) : Prop :=
  (∃ e, stepLogic = Except.error e) ∨
  (∃ fields p, stepLogic = Except.ok (JsValue.obj fields) ∧
    fields.find? (fun kv => kv.1 == "success") = some p ∧
    p.2 = JsValue.bool false)

theorem isErrorResult_eq_true_iff (v : JsValue) :
    isErrorResult v = true ↔
      ∃ fields p, v = JsValue.obj fields ∧
        fields.find? (fun kv => kv.1 == "success") = some p ∧
        p.2 = JsValue.bool false := by
  cases v with
  | obj fields =>
    simp only [isErrorResult]
    cases hf : fields.find? (fun kv => kv.1 == "success") with
    | none =>
      constructor
      · intro h; exact absurd h (by simp)
      · rintro ⟨fs, p, heq, hfind, hp⟩
        injection heq with heq2
        subst heq2
        rw [hf] at hfind
        exact Option.noConfusion hfind
    | some kv =>
      obtain ⟨k, v2⟩ := kv
      constructor
      · intro h
        cases v2 with
        | bool b =>
          cases b with
          | false => exact ⟨fields, (k, JsValue.bool false), rfl, hf, rfl⟩
          | true => exact absurd h (by simp)
        | null => exact absurd h (by simp)
        | undefined => exact absurd h (by simp)
        | num n => exact absurd h (by simp)
        | str s => exact absurd h (by simp)
        | obj o => exact absurd h (by simp)
        | arr a => exact absurd h (by simp)
      · rintro ⟨fs, p, heq, hfind, hp⟩
        injection heq with heq2
        subst heq2
        rw [hf] at hfind
        injection hfind with hkv
        subst hkv
        simp only at hp
        rw [hp]
  | null =>
    constructor
    · intro h; exact absurd h (by simp [isErrorResult])
    · rintro ⟨fs, p, heq, hfind, hp⟩; exact JsValue.noConfusion heq
  | undefined =>
    constructor
    · intro h; exact absurd h (by simp [isErrorResult])
    · rintro ⟨fs, p, heq, hfind, hp⟩; exact JsValue.noConfusion heq
  | bool b =>
    constructor
    · intro h; exact absurd h (by simp [isErrorResult])
    · rintro ⟨fs, p, heq, hfind, hp⟩; exact JsValue.noConfusion heq
  | num n =>
    constructor
    · intro h; exact absurd h (by simp [isErrorResult])
    · rintro ⟨fs, p, heq, hfind, hp⟩; exact JsValue.noConfusion heq
  | str s =>
    constructor
    · intro h; exact absurd h (by simp [isErrorResult])
    · rintro ⟨fs, p, heq, hfind, hp⟩; exact JsValue.noConfusion heq
  | arr es =>
    constructor
    · intro h; exact absurd h (by simp [isErrorResult])
    · rintro ⟨fs, p, heq, hfind, hp⟩; exact JsValue.noConfusion heq

theorem completeStatus_eq (fetchFn : LogRequest → FetchOutcome) (now : Nat)
    (ctx : Option StepContext) (input : JsValue)
    (stepLogic : Except String JsValue) :
    (withStepLogging fetchFn now ctx input stepLogic).completeStatus =
      match stepLogic with
      | .error _ => "error"
      | .ok v => if isErrorResult v then "error" else "success" := by
  cases stepLogic with
  | error e => rfl
  | ok v =>
    simp only [withStepLogging]
    by_cases h : isErrorResult v = true
    · simp [h]
    · simp [h]

/-- C4: the logging wrapper (`withStepLogging`, and the `stepHandler`
variant) passes completion status `error` to the completion logger exactly
when the step outcome was a thrown exception or an object result whose
`success` field is exactly `false`; in every other case it passes
`success`. -/
theorem wrapper_records_error_iff_failure
    (fetchFn : LogRequest → FetchOutcome) (now : Nat)
    (ctx : Option StepContext) (ctx2 : StepContext) (input : JsValue)
    (stepLogic : Except String JsValue) :
    ((withStepLogging fetchFn now ctx input stepLogic).completeStatus = "error"
      ↔ isFailureOutcome stepLogic)
    ∧ ((withStepLogging fetchFn now ctx input stepLogic).completeStatus = "success"
      ↔ ¬ isFailureOutcome stepLogic)
    ∧ ((stepHandler fetchFn now stepLogic input ctx2).completeStatus = "error"
      ↔ isFailureOutcome stepLogic)
    ∧ ((stepHandler fetchFn now stepLogic input ctx2).completeStatus = "success"
      ↔ ¬ isFailureOutcome stepLogic) := by
  have key : ∀ c : Option StepContext,
      ((withStepLogging fetchFn now c input stepLogic).completeStatus = "error"
        ↔ isFailureOutcome stepLogic)
      ∧ ((withStepLogging fetchFn now c input stepLogic).completeStatus = "success"
        ↔ ¬ isFailureOutcome stepLogic) := by
    intro c
    simp only [isFailureOutcome]
    cases stepLogic with
    | error e =>
      have hstat : (withStepLogging fetchFn now c input
          (Except.error e)).completeStatus = "error" :=
        completeStatus_eq fetchFn now c input (Except.error e)
      rw [hstat]
      refine ⟨⟨fun _ => Or.inl ⟨e, rfl⟩, fun _ => rfl⟩,
        ⟨fun hh => absurd hh (by simp),
         fun hh => absurd (Or.inl ⟨e, rfl⟩) hh⟩⟩
    | ok v =>
      have hstat : (withStepLogging fetchFn now c input
          (Except.ok v)).completeStatus =
          if isErrorResult v = true then "error" else "success" :=
        completeStatus_eq fetchFn now c input (Except.ok v)
      rw [hstat]
      by_cases h : isErrorResult v = true
      · obtain ⟨fields, p, hv, hfind, hp⟩ := (isErrorResult_eq_true_iff v).mp h
        subst hv
        rw [if_pos h]
        refine ⟨⟨fun _ => Or.inr ⟨fields, p, rfl, hfind, hp⟩, fun _ => rfl⟩,
          ⟨fun hh => absurd hh (by simp),
           fun hh => absurd (Or.inr ⟨fields, p, rfl, hfind, hp⟩) hh⟩⟩
      · have hnf : ¬ ((∃ e, (Except.ok v : Except String JsValue) = Except.error e) ∨
            (∃ fields p, (Except.ok v : Except String JsValue) =
              Except.ok (JsValue.obj fields) ∧
              fields.find? (fun kv => kv.1 == "success") = some p ∧
              p.2 = JsValue.bool false)) := by
          rintro (⟨e, he⟩ | ⟨fields, p, hv, hfind, hp⟩)
          · exact Except.noConfusion he
          · injection hv with hv2
            subst hv2
            exact h ((isErrorResult_eq_true_iff _).mpr ⟨fields, p, rfl, hfind, hp⟩)
        rw [if_neg h]
        refine ⟨⟨fun hh => absurd hh (by simp), fun hh => absurd hh hnf⟩,
          ⟨fun _ => hnf, fun _ => rfl⟩⟩
  refine ⟨(key ctx).1, (key ctx).2, ?_, ?_⟩
  · exact (key (some ctx2)).1
  · exact (key (some ctx2)).2

/-- C5: logging is best-effort.  If every fetch attempt fails (throws, or
returns a non-ok response), `logStepStart` still returns, falling back to
an empty `logId` and the current time; and for every behaviour of the log
store (including one that always throws), the wrapped step logic runs and
the wrapper's result is exactly the step's own outcome — a logging failure
is never propagated to the caller. -/
theorem logging_failure_swallowed
    (fetchFn : LogRequest → FetchOutcome) (now : Nat)
    (ctx : Option StepContext) (input : JsValue)
    (stepLogic : Except String JsValue) :
    ((∀ r, fetchFn r = FetchOutcome.threw ∨
        ∃ lid st, fetchFn r = FetchOutcome.resp false lid st) →
      (logStepStart fetchFn now ctx input).1 = ⟨"", now⟩)
    ∧ (withStepLogging fetchFn now ctx input stepLogic).result = stepLogic := by
  constructor
  · intro hfail
    cases ctx with
    | none => rfl
    | some c =>
      simp only [logStepStart]
      cases hc : c.executionId with
      | none => rfl
      | some eid =>
        by_cases he : eid = ""
        · simp [he]
        · simp only [he, if_false]
          rcases hfail (LogRequest.start eid c.nodeId c.nodeName c.nodeType
              (redactSensitiveData input)) with h | ⟨lid, st, h⟩
          · rw [h]
          · rw [h]
            simp
  · cases stepLogic with
    | error e => rfl
    | ok v =>
      simp only [withStepLogging]
      by_cases h : isErrorResult v = true
      · simp [h]
      · simp [h]

theorem logStepStart_transmitted_redacted
    (fetchFn : LogRequest → FetchOutcome) (now : Nat)
    (ctx : Option StepContext) (input : JsValue) :
    ∀ r ∈ (logStepStart fetchFn now ctx input).2,
      ∃ eid nid nn nt,
        r = LogRequest.start eid nid nn nt (redactSensitiveData input) := by
  intro r hr
  cases ctx with
  | none => simp [logStepStart] at hr
  | some c =>
    simp only [logStepStart] at hr
    cases hc : c.executionId with
    | none => rw [hc] at hr; simp at hr
    | some eid =>
      rw [hc] at hr
      by_cases he : eid = ""
      · simp [he] at hr
      · simp only [he, if_false] at hr
        cases hf : fetchFn (LogRequest.start eid c.nodeId c.nodeName c.nodeType
            (redactSensitiveData input)) with
        | threw =>
          rw [hf] at hr
          simp at hr
          exact ⟨eid, c.nodeId, c.nodeName, c.nodeType, hr⟩
        | resp ok lid st =>
          rw [hf] at hr
          cases ok with
          | true =>
            simp at hr
            exact ⟨eid, c.nodeId, c.nodeName, c.nodeType, hr⟩
          | false =>
            simp at hr
            exact ⟨eid, c.nodeId, c.nodeName, c.nodeType, hr⟩

theorem logStepComplete_transmitted_redacted
    (fetchFn : LogRequest → FetchOutcome) (logInfo : LogInfo)
    (status : String) (output : JsValue) (error : Option String) :
    ∀ r ∈ logStepComplete fetchFn logInfo status output error,
      r = LogRequest.complete logInfo.logId logInfo.startTime status
        (redactSensitiveData output) error := by
  intro r hr
  simp only [logStepComplete] at hr
  by_cases h : logInfo.logId = ""
  · simp [h] at hr
  · simp [h] at hr
    exact hr

/-- C6: every payload the step-logging wrapper transmits to the log store
is redacted first: a transmitted `start` request carries
`redactSensitiveData` of the step input, and a transmitted `complete`
request carries `redactSensitiveData` of the value it persists — no
unredacted input or output snapshot is ever sent.  The `stepHandler`
variant transmits through the same functions. -/
theorem wrapper_transmits_only_redacted
    (fetchFn : LogRequest → FetchOutcome) (now : Nat)
    (ctx : Option StepContext) (ctx2 : StepContext) (input : JsValue)
    (stepLogic : Except String JsValue) :
    (∀ r ∈ (withStepLogging fetchFn now ctx input stepLogic).transmitted,
      (∃ eid nid nn nt,
        r = LogRequest.start eid nid nn nt (redactSensitiveData input)) ∨
      (∃ lid st status err w,
        r = LogRequest.complete lid st status (redactSensitiveData w) err))
    ∧ (∀ r ∈ (stepHandler fetchFn now stepLogic input ctx2).transmitted,
      (∃ eid nid nn nt,
        r = LogRequest.start eid nid nn nt (redactSensitiveData input)) ∨
      (∃ lid st status err w,
        r = LogRequest.complete lid st status (redactSensitiveData w) err)) := by
  have key : ∀ c : Option StepContext,
      ∀ r ∈ (withStepLogging fetchFn now c input stepLogic).transmitted,
        (∃ eid nid nn nt,
          r = LogRequest.start eid nid nn nt (redactSensitiveData input)) ∨
        (∃ lid st status err w,
          r = LogRequest.complete lid st status (redactSensitiveData w) err) := by
    intro c r hr
    have hsplit : r ∈ (logStepStart fetchFn now c input).2 ∨
        (∃ status out err,
          r ∈ logStepComplete fetchFn (logStepStart fetchFn now c input).1
            status out err) := by
      cases stepLogic with
      | error e =>
        simp only [withStepLogging] at hr
        rcases List.mem_append.mp hr with h | h
        · exact Or.inl h
        · exact Or.inr ⟨"error", JsValue.undefined, some e, h⟩
      | ok v =>
        simp only [withStepLogging] at hr
        by_cases hv : isErrorResult v = true
        · rw [if_pos hv] at hr
          rcases List.mem_append.mp hr with h | h
          · exact Or.inl h
          · exact Or.inr ⟨"error", v, some ((errorFieldOf v).getD "Step execution failed"), h⟩
        · rw [if_neg hv] at hr
          rcases List.mem_append.mp hr with h | h
          · exact Or.inl h
          · exact Or.inr ⟨"success", v, none, h⟩
    rcases hsplit with h | ⟨status, out, err, h⟩
    · exact Or.inl (logStepStart_transmitted_redacted fetchFn now c input r h)
    · have := logStepComplete_transmitted_redacted fetchFn
        (logStepStart fetchFn now c input).1 status out err r h
      exact Or.inr ⟨(logStepStart fetchFn now c input).1.logId,
        (logStepStart fetchFn now c input).1.startTime, status, err, out, this⟩
  exact ⟨key ctx, key (some ctx2)⟩

theorem logging_failure_swallowed_witness :
    (logStepStart (fun _ => FetchOutcome.threw) 5
      (some ⟨some "exec-1", "n1", "Node 1", "action"⟩)
      (JsValue.obj [("apiKey", JsValue.str "k")])).1 = ⟨"", 5⟩
    ∧ (withStepLogging (fun _ => FetchOutcome.threw) 5
      (some ⟨some "exec-1", "n1", "Node 1", "action"⟩)
      (JsValue.obj [("apiKey", JsValue.str "k")])
      (Except.ok (JsValue.obj []))).result = Except.ok (JsValue.obj []) :=
  ⟨(logging_failure_swallowed (fun _ => FetchOutcome.threw) 5
      (some ⟨some "exec-1", "n1", "Node 1", "action"⟩)
      (JsValue.obj [("apiKey", JsValue.str "k")])
      (Except.ok (JsValue.obj []))).1 (fun _ => Or.inl rfl),
   (logging_failure_swallowed (fun _ => FetchOutcome.threw) 5
      (some ⟨some "exec-1", "n1", "Node 1", "action"⟩)
      (JsValue.obj [("apiKey", JsValue.str "k")])
      (Except.ok (JsValue.obj []))).2⟩

theorem wrapper_transmits_only_redacted_witness :
    (∃ eid nid nn nt,
      LogRequest.start "exec-1" "n1" "Node 1" "action"
        (redactSensitiveData (JsValue.obj [("apiKey", JsValue.str "k")]))
        = LogRequest.start eid nid nn nt
          (redactSensitiveData (JsValue.obj [("apiKey", JsValue.str "k")]))) ∨
    (∃ lid st status err w,
      LogRequest.start "exec-1" "n1" "Node 1" "action"
        (redactSensitiveData (JsValue.obj [("apiKey", JsValue.str "k")]))
        = LogRequest.complete lid st status (redactSensitiveData w) err) :=
  (wrapper_transmits_only_redacted
    (fun _ => FetchOutcome.resp false none none) 5
    (some ⟨some "exec-1", "n1", "Node 1", "action"⟩)
    ⟨some "exec-1", "n1", "Node 1", "action"⟩
    (JsValue.obj [("apiKey", JsValue.str "k")])
    (Except.ok (JsValue.obj []))).1
    (LogRequest.start "exec-1" "n1" "Node 1" "action"
      (redactSensitiveData (JsValue.obj [("apiKey", JsValue.str "k")])))
    (List.Mem.head _)

/-! ## Server-side log store (`lib/workflow-logger`, part_012)

`logStepStartDb` inserts a `workflow_execution_logs` row, `logStepCompleteDb`
updates the row with the given `logId`.  The table is modelled as a list of
rows; the database-generated row id is the `freshId` argument, and
`Date.now()` / `new Date()` the `now` argument. -/

/-- One row of the `workflow_execution_logs` table. -/
structure LogRow where
  id : String
  executionId : String
  nodeId : String
  nodeName : String
  nodeType : String
  status : String
  input : Option JsValue
  output : Option JsValue
  error : Option String
  startedAt : Option Nat
  completedAt : Option Nat
  duration : Option Nat
deriving Repr

/-- Arguments of `logStepStartDb` (`LogStepStartParams`). -/
structure LogStepStartParams where
  executionId : String
  nodeId : String
  nodeName : String
  nodeType : String
  input : Option JsValue
deriving Repr

/-- Arguments of `logStepCompleteDb` (`LogStepCompleteParams`). -/
structure LogStepCompleteParams where
  logId : String
  startTime : Nat
  status : String
  output : Option JsValue
  error : Option String
deriving Repr

/-- The row inserted by `logStepStartDb`. -/
def mkStartRow (freshId : String) (now : Nat)
    (params : LogStepStartParams) : LogRow where
  id := freshId
  executionId := params.executionId
  nodeId := params.nodeId
  nodeName := params.nodeName
  nodeType := params.nodeType
  status := "running"
  input := params.input
  output := none
  error := none
  startedAt := some now
  completedAt := none
  duration := none

/-- `logStepStartDb` (part_012 lines 28-53): inserts a new row with
status `"running"`, the input snapshot it was handed, and the
start timestamp, returning the generated row id and `Date.now()`. -/
def logStepStartDb (table : List LogRow) (freshId : String) (now : Nat)
    (params : LogStepStartParams) : List LogRow × LogInfo :=
  (table ++ [mkStartRow freshId now params], ⟨freshId, now⟩)

/-- The update `logStepCompleteDb` applies to the matching row. -/
def completeRow (now : Nat) (params : LogStepCompleteParams)
    (r : LogRow) : LogRow :=
  { r with
    status := params.status
    output := params.output
    error := params.error
    completedAt := some now
    duration := some (now - params.startTime) }

/-- `logStepCompleteDb` (part_012 lines 66-84): updates the row whose id
equals `params.logId` with the terminal status, output, error, completion
time and duration (`Date.now() - startTime`); other rows are untouched. -/
def logStepCompleteDb (table : List LogRow) (now : Nat)
    (params : LogStepCompleteParams) : List LogRow :=
  table.map fun r =>
    if r.id = params.logId then completeRow now params r
    else r

/-- One database operation issued by the workflow logger. -/
inductive DbOp where
  | start (params : LogStepStartParams) (freshId : String) (now : Nat)
  | complete (params : LogStepCompleteParams) (now : Nat)
deriving Repr

def applyOp (table : List LogRow) : DbOp → List LogRow
  | .start params freshId now => (logStepStartDb table freshId now params).1
  | .complete params now => logStepCompleteDb table now params

/-- The table state after running a sequence of logger operations. -/
def applyOps (table : List LogRow) (ops : List DbOp) : List LogRow :=
  ops.foldl applyOp table

/-- Number of rows for one `(execution, node)` pair. -/
def pairCount (table : List LogRow) (eid nid : String) : Nat :=
  (table.filter fun r => r.executionId == eid && r.nodeId == nid).length

/-- Number of rows in status `running` for one `(execution, node)` pair. -/
def runningCount (table : List LogRow) (eid nid : String) : Nat :=
  (table.filter fun r =>
    (r.executionId == eid && r.nodeId == nid) && r.status == "running").length

def isStartFor (eid nid : String) : DbOp → Bool
  | .start p _ _ => p.executionId == eid && p.nodeId == nid
  | .complete _ _ => false

/-- Number of `start` operations for one `(execution, node)` pair: the
executor invokes each node at most once per execution (spec §3), so a
well-formed trace has at most one. -/
def startCount (ops : List DbOp) (eid nid : String) : Nat :=
  (ops.filter (isStartFor eid nid)).length

/-- Whether one operation carries a terminal completion status, as
`logStepCompleteDb`'s parameter type prescribes
(`status: "success" | "error"`). -/
def terminalOp : DbOp → Bool
  | .complete p _ => p.status == "success" || p.status == "error"
  | .start _ _ _ => true

/-- Every `complete` operation in the trace carries a terminal status. -/
def terminalCompletes (ops : List DbOp) : Bool :=
  ops.all terminalOp

theorem length_filter_le_of_imp {α : Type} (p q : α → Bool) (l : List α)
    (h : ∀ a, p a = true → q a = true) :
    (l.filter p).length ≤ (l.filter q).length := by
  induction l with
  | nil => simp
  | cons a t ih =>
    simp only [List.filter_cons]
    by_cases hp : p a = true
    · rw [if_pos hp, if_pos (h a hp)]
      simpa using ih
    · rw [if_neg hp]
      by_cases hq : q a = true
      · rw [if_pos hq]
        exact ih.trans (Nat.le_succ _)
      · rw [if_neg hq]
        exact ih

theorem length_filter_map_eq {α β : Type} (f : α → β) (p : β → Bool)
    (q : α → Bool) (l : List α) (h : ∀ a, p (f a) = q a) :
    ((l.map f).filter p).length = (l.filter q).length := by
  induction l with
  | nil => rfl
  | cons a t ih =>
    simp only [List.map_cons, List.filter_cons, h a]
    by_cases hq : q a = true
    · rw [if_pos hq, if_pos hq]
      simp only [List.length_cons]
      rw [ih]
    · rw [if_neg hq, if_neg hq]
      exact ih

theorem runningCount_le_pairCount (table : List LogRow) (eid nid : String) :
    runningCount table eid nid ≤ pairCount table eid nid := by
  refine length_filter_le_of_imp _ _ table (fun r hr => ?_)
  simp only [Bool.and_eq_true] at hr
  simp [hr.1.1, hr.1.2]

theorem pairCount_complete (table : List LogRow) (now : Nat)
    (params : LogStepCompleteParams) (eid nid : String) :
    pairCount (logStepCompleteDb table now params) eid nid =
      pairCount table eid nid := by
  unfold pairCount logStepCompleteDb
  refine length_filter_map_eq _ _ _ table (fun r => ?_)
  by_cases hid : r.id = params.logId
  · rw [if_pos hid]
    rfl
  · rw [if_neg hid]

theorem pairCount_applyOp (table : List LogRow) (op : DbOp) (eid nid : String) :
    pairCount (applyOp table op) eid nid ≤
      pairCount table eid nid + (if isStartFor eid nid op then 1 else 0) := by
  cases op with
  | start p fid now =>
    simp only [applyOp, logStepStartDb, pairCount, List.filter_append,
      List.length_append, isStartFor]
    by_cases hm : (p.executionId == eid && p.nodeId == nid) = true
    · have hrow : ((mkStartRow fid now p).executionId == eid &&
          (mkStartRow fid now p).nodeId == nid) = true := hm
      simp [hrow, hm, mkStartRow]
    · have hrow : ((mkStartRow fid now p).executionId == eid &&
          (mkStartRow fid now p).nodeId == nid) = false := by
        simp only [Bool.not_eq_true] at hm
        exact hm
      simp only [Bool.not_eq_true] at hm
      simp [hrow, hm, mkStartRow]
  | complete p now =>
    have h1 : applyOp table (DbOp.complete p now) =
        logStepCompleteDb table now p := rfl
    rw [h1, pairCount_complete]
    simp [isStartFor]

theorem pairCount_applyOps (ops : List DbOp) (table : List LogRow)
    (eid nid : String) :
    pairCount (applyOps table ops) eid nid ≤
      pairCount table eid nid + startCount ops eid nid := by
  induction ops generalizing table with
  | nil => simp [applyOps, startCount]
  | cons op rest ih =>
    have hstep := pairCount_applyOp table op eid nid
    have htail := ih (applyOp table op)
    have hops : applyOps table (op :: rest) = applyOps (applyOp table op) rest := rfl
    rw [hops]
    have hcount : startCount (op :: rest) eid nid =
        (if isStartFor eid nid op then 1 else 0) + startCount rest eid nid := by
      simp only [startCount, List.filter_cons]
      by_cases hm : isStartFor eid nid op = true
      · rw [if_pos hm, if_pos hm]
        simp only [List.length_cons]
        omega
      · rw [if_neg hm, if_neg hm]
        simp
    rw [hcount]
    omega

theorem startCount_prefix_le (pre suf : List DbOp) (eid nid : String) :
    startCount pre eid nid ≤ startCount (pre ++ suf) eid nid := by
  simp only [startCount, List.filter_append, List.length_append]
  omega

/-- The lifecycle invariant a single row satisfies at every time:
still `running` with no completion time, or completed with a terminal
status and a completion time. -/
def RowOk (r : LogRow) : Prop :=
  (r.status = "running" ∧ r.completedAt = none) ∨
  ((r.status = "success" ∨ r.status = "error") ∧ ∃ n2, r.completedAt = some n2)

theorem rowOk_applyOps (ops : List DbOp) (table : List LogRow)
    (hterm : terminalCompletes ops = true)
    (htable : ∀ r ∈ table, RowOk r) :
    ∀ r ∈ applyOps table ops, RowOk r := by
  induction ops generalizing table with
  | nil => exact htable
  | cons op rest ih =>
    have hall : terminalOp op = true ∧ terminalCompletes rest = true := by
      simpa only [terminalCompletes, List.all_cons, Bool.and_eq_true]
        using hterm
    have hstep : ∀ r ∈ applyOp table op, RowOk r := by
      cases op with
      | start p fid now =>
        intro r hr
        simp only [applyOp, logStepStartDb, List.mem_append,
          List.mem_singleton] at hr
        rcases hr with hr | hr
        · exact htable r hr
        · subst hr
          exact Or.inl ⟨rfl, rfl⟩
      | complete p now =>
        intro r hr
        simp only [applyOp, logStepCompleteDb, List.mem_map] at hr
        obtain ⟨r0, hr0, hfr⟩ := hr
        by_cases hid : r0.id = p.logId
        · rw [if_pos hid] at hfr
          subst hfr
          have hst : p.status = "success" ∨ p.status = "error" := by
            have h2 := hall.1
            simp only [terminalOp, Bool.or_eq_true, beq_iff_eq] at h2
            exact h2
          exact Or.inr ⟨hst, now, rfl⟩
        · rw [if_neg hid] at hfr
          subst hfr
          exact htable r0 hr0
    exact ih (applyOp table op) hall.2 hstep

/-- C7: each row is created by `logStepStartDb` in status `running` with
no completion time; `logStepCompleteDb` mutates exactly the row with the
matching id, setting a terminal status together with completion time and
duration; and along any trace with at most one start per
`(execution, node)` pair — the executor runs each node at most once per
execution — every prefix of the trace leaves at most one `running` row for
that pair, and (with terminal completion statuses) every row is either
still `running` and uncompleted, or terminally completed. -/
theorem log_row_lifecycle (ops : List DbOp) (eid nid : String)
    (hstart : startCount ops eid nid ≤ 1)
    (hterm : terminalCompletes ops = true) :
    (∀ table fid now p, ∃ row,
        (logStepStartDb table fid now p).1 = table ++ [row] ∧
        row.status = "running" ∧ row.id = fid ∧
        row.executionId = p.executionId ∧ row.nodeId = p.nodeId ∧
        row.completedAt = none ∧ row.startedAt = some now)
    ∧ (∀ table now p r, r ∈ logStepCompleteDb table now p →
        (∃ r0, r0 ∈ table ∧ r0.id ≠ p.logId ∧ r = r0) ∨
        (∃ r0, r0 ∈ table ∧ r0.id = p.logId ∧ r.id = r0.id ∧
          r.status = p.status ∧ r.completedAt = some now ∧
          r.duration = some (now - p.startTime)))
    ∧ (∀ pre suf, ops = pre ++ suf →
        runningCount (applyOps [] pre) eid nid ≤ 1)
    ∧ (∀ pre suf, ops = pre ++ suf → ∀ r ∈ applyOps [] pre, RowOk r) := by
  refine ⟨?_, ?_, ?_, ?_⟩
  · intro table fid now p
    exact ⟨_, rfl, rfl, rfl, rfl, rfl, rfl, rfl⟩
  · intro table now p r hr
    simp only [logStepCompleteDb, List.mem_map] at hr
    obtain ⟨r0, hr0, hfr⟩ := hr
    by_cases hid : r0.id = p.logId
    · rw [if_pos hid] at hfr
      subst hfr
      exact Or.inr ⟨r0, hr0, hid, rfl, rfl, rfl, rfl⟩
    · rw [if_neg hid] at hfr
      subst hfr
      exact Or.inl ⟨r0, hr0, hid, rfl⟩
  · intro pre suf heq
    have h1 := runningCount_le_pairCount (applyOps [] pre) eid nid
    have h2 := pairCount_applyOps pre [] eid nid
    have h3 := startCount_prefix_le pre suf eid nid
    rw [← heq] at h3
    have h0 : pairCount [] eid nid = 0 := rfl
    omega
  · intro pre suf heq r hr
    have hterm2 : terminalCompletes pre = true := by
      rw [heq] at hterm
      simp only [terminalCompletes, List.all_append, Bool.and_eq_true] at hterm
      exact hterm.1
    exact rowOk_applyOps pre [] hterm2 (by intro r2 hr2; simp at hr2) r hr

theorem log_row_lifecycle_witness :
    runningCount
      (applyOps []
        [DbOp.start ⟨"e1", "n1", "Node 1", "action", none⟩ "L1" 10,
         DbOp.complete ⟨"L1", 10, "success", none, none⟩ 20])
      "e1" "n1" ≤ 1 :=
  (log_row_lifecycle
    [DbOp.start ⟨"e1", "n1", "Node 1", "action", none⟩ "L1" 10,
     DbOp.complete ⟨"L1", 10, "success", none, none⟩ 20]
    "e1" "n1" (by decide) (by decide)).2.2.1
    [DbOp.start ⟨"e1", "n1", "Node 1", "action", none⟩ "L1" 10,
     DbOp.complete ⟨"L1", 10, "success", none, none⟩ 20] [] rfl

/-! ## Credential encryption (`src/lib/integrations-supabase.ts`)

The AES-256-GCM primitive, and UTF-8 encoding, live in `node:crypto` /
the JS runtime, outside the repository; they are abstracted as a
`CryptoPrimitives` record, with their correctness properties taken as
hypotheses where a theorem needs them.  The repository's own code — key
validation, the `iv:authTag:ciphertext` hex envelope, splitting and
re-parsing it — is embedded directly.  Bytes are `Nat`s below 256; hex
runs are `List Char`. -/

def hexDigitChar (n : Nat) : Char :=
  match n with
  | 0 => '0' | 1 => '1' | 2 => '2' | 3 => '3'
  | 4 => '4' | 5 => '5' | 6 => '6' | 7 => '7'
  | 8 => '8' | 9 => '9' | 10 => 'a' | 11 => 'b'
  | 12 => 'c' | 13 => 'd' | 14 => 'e' | _ => 'f'

def hexCharVal (c : Char) : Option Nat :=
  if c = '0' then some 0 else if c = '1' then some 1
  else if c = '2' then some 2 else if c = '3' then some 3
  else if c = '4' then some 4 else if c = '5' then some 5
  else if c = '6' then some 6 else if c = '7' then some 7
  else if c = '8' then some 8 else if c = '9' then some 9
  else if c = 'a' then some 10 else if c = 'b' then some 11
  else if c = 'c' then some 12 else if c = 'd' then some 13
  else if c = 'e' then some 14 else if c = 'f' then some 15
  else none

/-- `buffer.toString("hex")`: two lowercase hex digits per byte. -/
def hexEncode : List Nat → List Char
  | [] => []
  | b :: bs => hexDigitChar (b / 16) :: hexDigitChar (b % 16) :: hexEncode bs

/-- `Buffer.from(s, "hex")`, modelled strictly: an odd length or a
non-hex digit fails (Node silently truncates instead; the claims only
concern well-formed hex, which both models treat identically). -/
def hexDecode : List Char → Option (List Nat)
  | [] => some []
  | [_] => none
  | c1 :: c2 :: rest =>
    match hexCharVal c1, hexCharVal c2, hexDecode rest with
    | some h, some l, some bs => some ((h * 16 + l) :: bs)
    | _, _, _ => none

/-- JavaScript `String.prototype.split(":")` on a character list. -/
def splitOnColon : List Char → List (List Char)
  | [] => [[]]
  | c :: rest =>
    if c = ':' then [] :: splitOnColon rest
    else
      match splitOnColon rest with
      | [] => [[c]]
      | s :: ss => (c :: s) :: ss

theorem hexCharVal_hexDigitChar (n : Nat) (h : n < 16) :
    hexCharVal (hexDigitChar n) = some n := by
  interval_cases n <;> rfl

theorem hexDigitChar_ne_colon (n : Nat) : hexDigitChar n ≠ ':' := by
  unfold hexDigitChar
  split <;> decide

theorem hexEncode_no_colon (bs : List Nat) :
    ∀ c ∈ hexEncode bs, c ≠ ':' := by
  induction bs with
  | nil => intro c hc; simp [hexEncode] at hc
  | cons b bs2 ih =>
    intro c hc
    simp only [hexEncode, List.mem_cons] at hc
    rcases hc with hc | hc | hc
    · rw [hc]; exact hexDigitChar_ne_colon _
    · rw [hc]; exact hexDigitChar_ne_colon _
    · exact ih c hc

theorem hexDecode_hexEncode (bs : List Nat) (h : ∀ b ∈ bs, b < 256) :
    hexDecode (hexEncode bs) = some bs := by
  induction bs with
  | nil => rfl
  | cons b bs2 ih =>
    have hb : b < 256 := h b (List.mem_cons_self ..)
    have h1 : b / 16 < 16 := by omega
    have h2 : b % 16 < 16 := by omega
    have ih2 := ih (fun x hx => h x (List.mem_cons_of_mem _ hx))
    simp only [hexEncode, hexDecode, hexCharVal_hexDigitChar _ h1,
      hexCharVal_hexDigitChar _ h2, ih2]
    have : b / 16 * 16 + b % 16 = b := by omega
    rw [this]

theorem splitOnColon_no_colon (a : List Char) (ha : ∀ c ∈ a, c ≠ ':') :
    splitOnColon a = [a] := by
  induction a with
  | nil => rfl
  | cons c a2 ih =>
    have hc : c ≠ ':' := ha c (List.mem_cons_self ..)
    have ih2 := ih (fun x hx => ha x (List.mem_cons_of_mem _ hx))
    simp only [splitOnColon, if_neg hc, ih2]

theorem splitOnColon_append (a r : List Char) (ha : ∀ c ∈ a, c ≠ ':') :
    splitOnColon (a ++ ':' :: r) = a :: splitOnColon r := by
  induction a with
  | nil => simp [splitOnColon]
  | cons c a2 ih =>
    have hc : c ≠ ':' := ha c (List.mem_cons_self ..)
    have ih2 := ih (fun x hx => ha x (List.mem_cons_of_mem _ hx))
    simp only [List.cons_append, splitOnColon, if_neg hc, List.append_eq, ih2]

/-- The external cryptography: an AEAD cipher
(`createCipheriv`/`createDecipheriv` with aes-256-gcm; `enc` returns
`(ciphertext, authTag)`, `dec` returns `none` when authentication fails)
and the runtime's UTF-8 codec. -/
structure CryptoPrimitives where
  enc : List Nat → List Nat → List Nat → List Nat × List Nat
  dec : List Nat → List Nat → List Nat → List Nat → Option (List Nat)
  utf8Enc : String → List Nat
  utf8Dec : List Nat → String

/-- `getEncryptionKey` (integrations-supabase.ts lines 17-33): requires
the `INTEGRATION_ENCRYPTION_KEY` environment value to be present and
64 characters long, then decodes it as hex. -/
def getEncryptionKey (env : Option String) : Except String (List Nat) :=
  match env with
  | none => .error
      "INTEGRATION_ENCRYPTION_KEY environment variable is required for encrypting integration credentials"
  | some keyHex =>
    if keyHex.length ≠ 64 then
      .error "INTEGRATION_ENCRYPTION_KEY must be a 64-character hex string (32 bytes)"
    else
      match hexDecode keyHex.toList with
      | some key => .ok key
      | none => .error "INTEGRATION_ENCRYPTION_KEY is not valid hex"

/-- `encrypt` (lines 39-51): derives the key from the environment,
encrypts the UTF-8 bytes of the plaintext under a random 16-byte iv
(the `iv` argument models `randomBytes(IV_LENGTH)`), and returns
`iv:authTag:ciphertext`, all hex. -/
def encrypt (prims : CryptoPrimitives) (env : Option String)
    (iv : List Nat) (plaintext : String) : Except String String :=
  match getEncryptionKey env with
  | .error e => .error e
  | .ok key =>
    let bytes := prims.utf8Enc plaintext
    let ct := (prims.enc key iv bytes).1
    let tag := (prims.enc key iv bytes).2
    .ok (String.mk (hexEncode iv ++ ':' :: hexEncode tag ++ ':' :: hexEncode ct))

/-- `decrypt` (lines 56-75): splits on `:` requiring exactly three parts
(else `"Invalid encrypted data format"`), hex-decodes iv, auth tag and
ciphertext, and decrypts, failing when authentication fails. -/
def decrypt (prims : CryptoPrimitives) (env : Option String)
    (ciphertext : String) : Except String String :=
  match getEncryptionKey env with
  | .error e => .error e
  | .ok key =>
    match splitOnColon ciphertext.toList with
    | [ivHex, tagHex, ctHex] =>
      match hexDecode ivHex, hexDecode tagHex, hexDecode ctHex with
      | some iv, some tag, some ct =>
        match prims.dec key iv tag ct with
        | some bytes => .ok (prims.utf8Dec bytes)
        | none => .error "Unsupported state or unable to authenticate data"
      | _, _, _ => .error "encrypted data is not valid hex"
    | _ => .error "Invalid encrypted data format"

/-- C8: round trip of the AES-256-GCM envelope.  For any plaintext and
any environment holding a valid 64-character hex key, given the cipher's
and UTF-8 codec's correctness on the involved values (they live outside
the repository), `decrypt` recovers exactly what `encrypt` produced: the
three-part `iv:authTag:ciphertext` hex envelope parses back and decrypts
to the original plaintext. -/
theorem encrypt_decrypt_roundtrip
    (prims : CryptoPrimitives) (env : Option String) (key iv : List Nat)
    (p : String)
    (hk : getEncryptionKey env = .ok key)
    (hiv : ∀ b ∈ iv, b < 256)
    (hub : ∀ b ∈ prims.utf8Enc p, b < 256)
    (hud : prims.utf8Dec (prims.utf8Enc p) = p)
    (hcb : ∀ b ∈ (prims.enc key iv (prims.utf8Enc p)).1, b < 256)
    (htb : ∀ b ∈ (prims.enc key iv (prims.utf8Enc p)).2, b < 256)
    (hdec : prims.dec key iv (prims.enc key iv (prims.utf8Enc p)).2
      (prims.enc key iv (prims.utf8Enc p)).1 = some (prims.utf8Enc p)) :
    ∃ c, encrypt prims env iv p = .ok c ∧ decrypt prims env c = .ok p := by
  refine ⟨String.mk (hexEncode iv ++ ':' ::
    hexEncode (prims.enc key iv (prims.utf8Enc p)).2 ++ ':' ::
    hexEncode (prims.enc key iv (prims.utf8Enc p)).1), ?_, ?_⟩
  · unfold encrypt
    rw [hk]
  · unfold decrypt
    rw [hk]
    have htl : (String.mk (hexEncode iv ++ ':' ::
        hexEncode (prims.enc key iv (prims.utf8Enc p)).2 ++ ':' ::
        hexEncode (prims.enc key iv (prims.utf8Enc p)).1)).toList =
        hexEncode iv ++ ':' ::
        (hexEncode (prims.enc key iv (prims.utf8Enc p)).2 ++ ':' ::
        hexEncode (prims.enc key iv (prims.utf8Enc p)).1) := by
      simp
    rw [htl, splitOnColon_append _ _ (hexEncode_no_colon iv),
      splitOnColon_append _ _ (hexEncode_no_colon _),
      splitOnColon_no_colon _ (hexEncode_no_colon _)]
    simp only [hexDecode_hexEncode iv hiv, hexDecode_hexEncode _ htb,
      hexDecode_hexEncode _ hcb, hdec, hud]

theorem encrypt_decrypt_roundtrip_witness :
    ∃ c, encrypt
      ⟨fun _ _ bytes => (bytes, []), fun _ _ _ ct => some ct,
       fun s => s.data.map Char.toNat,
       fun bs => String.mk (bs.map Char.ofNat)⟩
      (some "0000000000000000000000000000000000000000000000000000000000000000")
      [] "hi" = .ok c ∧
    decrypt
      ⟨fun _ _ bytes => (bytes, []), fun _ _ _ ct => some ct,
       fun s => s.data.map Char.toNat,
       fun bs => String.mk (bs.map Char.ofNat)⟩
      (some "0000000000000000000000000000000000000000000000000000000000000000")
      c = .ok "hi" :=
  encrypt_decrypt_roundtrip
    ⟨fun _ _ bytes => (bytes, []), fun _ _ _ ct => some ct,
     fun s => s.data.map Char.toNat,
     fun bs => String.mk (bs.map Char.ofNat)⟩
    (some "0000000000000000000000000000000000000000000000000000000000000000")
    (List.replicate 32 0) [] "hi"
    (by rfl) (by decide) (by decide) (by rfl) (by decide) (by decide)
    (by rfl)

/-! ## Integration reads (`src/lib/integrations-supabase.ts` lines 87-199)

`JSON.parse` is external and abstracted as a `parseJson` argument; the
`integrations` table query is abstracted as a lookup function / row list. -/

/-- One `integrations` table row as the queries return it. -/
structure IntegrationRowDb where
  id : String
  userId : String
  name : String
  itype : String
  config : String
  createdAt : String
  updatedAt : String
deriving Repr

/-- The decrypted shape the read operations return (`DecryptedIntegration`). -/
structure DecryptedIntegration where
  id : String
  userId : String
  name : String
  itype : String
  config : JsValue
  createdAt : String
  updatedAt : String
deriving Repr

/-- `decryptConfig` (lines 87-95): decrypt then `JSON.parse`, catching any
failure and falling back to the empty object. -/
def decryptConfig (prims : CryptoPrimitives) (env : Option String)
    (parseJson : String → Except String JsValue)
    (encryptedConfig : String) : JsValue :=
  match decrypt prims env encryptedConfig with
  | .error _ => JsValue.obj []
  | .ok s =>
    match parseJson s with
    | .error _ => JsValue.obj []
    | .ok v => v

/-- Row-to-result mapping shared by the read operations. -/
def rowToIntegration (prims : CryptoPrimitives) (env : Option String)
    (parseJson : String → Except String JsValue)
    (row : IntegrationRowDb) : DecryptedIntegration where
  id := row.id
  userId := row.userId
  name := row.name
  itype := row.itype
  config := decryptConfig prims env parseJson row.config
  createdAt := row.createdAt
  updatedAt := row.updatedAt

/-- `getIntegrationById` (lines 175-199): admin-client lookup by id,
`none` when the row is missing or the query errors (`error || !data`). -/
def getIntegrationById (prims : CryptoPrimitives) (env : Option String)
    (parseJson : String → Except String JsValue)
    (db : String → Option IntegrationRowDb)
    (integrationId : String) : Option DecryptedIntegration :=
  match db integrationId with
  | none => none
  | some row => some (rowToIntegration prims env parseJson row)

/-- `getIntegration` (lines 143-169): like `getIntegrationById` but the
query is additionally keyed by the owning user. -/
def getIntegration (prims : CryptoPrimitives) (env : Option String)
    (parseJson : String → Except String JsValue)
    (db : String → String → Option IntegrationRowDb)
    (integrationId userId : String) : Option DecryptedIntegration :=
  match db integrationId userId with
  | none => none
  | some row => some (rowToIntegration prims env parseJson row)

/-- `getIntegrations` (lines 110-138): all rows of one user, optionally
filtered by type; a query error yields the empty list. -/
def getIntegrations (prims : CryptoPrimitives) (env : Option String)
    (parseJson : String → Except String JsValue)
    (rows : List IntegrationRowDb) (queryError : Bool)
    (userId : String) (typeFilter : Option String) :
    List DecryptedIntegration :=
  if queryError then []
  else
    ((rows.filter fun r => r.userId == userId &&
        (match typeFilter with
          | some t => r.itype == t
          | none => true)).map
      (rowToIntegration prims env parseJson))

/-- C9: a stored blob that fails to decrypt or to parse never makes a read
throw: `decryptConfig` catches the failure and yields the empty object,
and each read operation returns the integration with that empty config
(or `none`/`[]` on a missing row or query error) rather than an
exception. -/
theorem decrypt_failure_yields_empty_config
    (prims : CryptoPrimitives) (env : Option String)
    (parseJson : String → Except String JsValue) :
    (∀ enc e, decrypt prims env enc = .error e →
      decryptConfig prims env parseJson enc = JsValue.obj [])
    ∧ (∀ enc s e, decrypt prims env enc = .ok s → parseJson s = .error e →
      decryptConfig prims env parseJson enc = JsValue.obj [])
    ∧ (∀ db iid row, db iid = some row →
      getIntegrationById prims env parseJson db iid =
        some (rowToIntegration prims env parseJson row))
    ∧ (∀ db iid uid row, db iid uid = some row →
      getIntegration prims env parseJson db iid uid =
        some (rowToIntegration prims env parseJson row))
    ∧ (∀ rows qe uid tf,
      ∀ i ∈ getIntegrations prims env parseJson rows qe uid tf,
        ∃ r, r ∈ rows ∧ i.id = r.id ∧
          i.config = decryptConfig prims env parseJson r.config) := by
  refine ⟨?_, ?_, ?_, ?_, ?_⟩
  · intro enc e hdec
    unfold decryptConfig
    rw [hdec]
  · intro enc s e hdec hparse
    unfold decryptConfig
    rw [hdec]
    show (match parseJson s with
      | Except.error _ => JsValue.obj []
      | Except.ok v => v) = JsValue.obj []
    rw [hparse]
  · intro db iid row hdb
    unfold getIntegrationById
    rw [hdb]
  · intro db iid uid row hdb
    unfold getIntegration
    rw [hdb]
  · intro rows qe uid tf i hi
    unfold getIntegrations at hi
    by_cases hq : qe = true
    · rw [if_pos hq] at hi
      simp at hi
    · rw [if_neg hq] at hi
      simp only [List.mem_map] at hi
      obtain ⟨r, hr, hri⟩ := hi
      refine ⟨r, List.mem_of_mem_filter hr, ?_, ?_⟩
      · rw [← hri]; rfl
      · rw [← hri]; rfl

theorem decrypt_failure_yields_empty_config_witness :
    decryptConfig
      ⟨fun _ _ bytes => (bytes, []), fun _ _ _ ct => some ct,
       fun s => s.data.map Char.toNat,
       fun bs => String.mk (bs.map Char.ofNat)⟩
      (some "0000000000000000000000000000000000000000000000000000000000000000")
      (fun _ => Except.error "unexpected token")
      "not-an-envelope" = JsValue.obj [] :=
  (decrypt_failure_yields_empty_config
    ⟨fun _ _ bytes => (bytes, []), fun _ _ _ ct => some ct,
     fun s => s.data.map Char.toNat,
     fun bs => String.mk (bs.map Char.ofNat)⟩
    (some "0000000000000000000000000000000000000000000000000000000000000000")
    (fun _ => Except.error "unexpected token")).1
    "not-an-envelope" "Invalid encrypted data format" (by rfl)

/-! ## Workflow integration validation
(`src/lib/integrations-supabase.ts` lines 324-387) -/

/-- `node.data?.config?.integrationId` shape used for validation. -/
structure ValidationNodeConfig where
  integrationId : Option JsValue

structure ValidationNodeData where
  config : Option ValidationNodeConfig

structure ValidationNode where
  data : Option ValidationNodeData

/-- The id collected from one node:
`integrationId && typeof integrationId === "string"` — a truthy
(non-empty) string. -/
def nodeIntegrationId (n : ValidationNode) : Option String :=
  match n.data with
  | none => none
  | some d =>
    match d.config with
    | none => none
    | some c =>
      match c.integrationId with
      | some (JsValue.str s) => if s = "" then none else some s
      | _ => none

/-- `[...new Set(ids)]`: deduplication keeping first occurrences. -/
def dedupFirst : List String → List String
  | [] => []
  | x :: xs => x :: (dedupFirst xs).filter (fun y => y ≠ x)

/-- `extractIntegrationIds` (lines 324-337). -/
def extractIntegrationIds (nodes : List ValidationNode) : List String :=
  dedupFirst (nodes.filterMap nodeIntegrationId)

/-- One row of the ownership query `select id, user_id`. -/
structure IntegrationOwnerRow where
  id : String
  userId : String
deriving Repr, DecidableEq

/-- `{ valid, invalidIds? }` result shape. -/
structure ValidationResult where
  valid : Bool
  invalidIds : Option (List String)
deriving Repr, DecidableEq

/-- `validateWorkflowIntegrations` (lines 352-387): with no extracted ids
the workflow is valid without querying; a failed ownership query
invalidates; otherwise the admin-client query returns every stored row
whose id is referenced (`.in("id", integrationIds)`, the `store` filter),
and the workflow is invalid exactly when some such row belongs to a
different user, those ids being reported. -/
def validateWorkflowIntegrations (store : List IntegrationOwnerRow)
    (queryFails : Bool) (nodes : List ValidationNode)
    (userId : String) : ValidationResult :=
  let integrationIds := extractIntegrationIds nodes
  if integrationIds.isEmpty then ⟨true, none⟩
  else if queryFails then ⟨false, none⟩
  else
    let existing := store.filter fun r => integrationIds.contains r.id
    let invalidIds := (existing.filter fun r => r.userId != userId).map
      (fun r => r.id)
    if invalidIds.isEmpty then ⟨true, none⟩ else ⟨false, some invalidIds⟩

theorem mem_dedupFirst (l : List String) (y : String) :
    y ∈ dedupFirst l ↔ y ∈ l := by
  induction l with
  | nil => simp [dedupFirst]
  | cons x xs ih =>
    simp only [dedupFirst, List.mem_cons, List.mem_filter, ih]
    constructor
    · rintro (h | ⟨h, _⟩)
      · exact Or.inl h
      · exact Or.inr h
    · rintro (h | h)
      · exact Or.inl h
      · by_cases hxy : y = x
        · exact Or.inl hxy
        · exact Or.inr ⟨h, by simpa using hxy⟩

/-- C10: `validateWorkflowIntegrations` returns `valid: false` exactly
when the executed ownership query fails, or some extracted integration id
exists in the store under a different user; such ids are reported in
`invalidIds`.  Ids absent from the store (stale references) never
invalidate: when no stored row matches under a foreign user and the query
does not fail, the result is valid. -/
theorem validate_workflow_integrations_spec
    (store : List IntegrationOwnerRow) (queryFails : Bool)
    (nodes : List ValidationNode) (userId : String) :
    ((validateWorkflowIntegrations store queryFails nodes userId).valid = false
      ↔ (extractIntegrationIds nodes ≠ [] ∧ queryFails = true) ∨
        (∃ r, r ∈ store ∧ r.id ∈ extractIntegrationIds nodes ∧
          r.userId ≠ userId))
    ∧ (∀ r, r ∈ store → r.id ∈ extractIntegrationIds nodes →
        r.userId ≠ userId → queryFails = false →
        ∃ ids, (validateWorkflowIntegrations store queryFails nodes
          userId).invalidIds = some ids ∧ r.id ∈ ids) := by
  have hInv : ∀ x : String,
      x ∈ ((store.filter fun r =>
          (extractIntegrationIds nodes).contains r.id).filter fun r =>
          r.userId != userId).map (fun r => r.id) ↔
        ∃ r, r ∈ store ∧ r.id ∈ extractIntegrationIds nodes ∧
          r.userId ≠ userId ∧ r.id = x := by
    intro x
    simp only [List.mem_map, List.mem_filter, bne_iff_ne, List.elem_iff,
      and_assoc]
  constructor
  · simp only [validateWorkflowIntegrations]
    by_cases h1 : (extractIntegrationIds nodes).isEmpty = true
    · rw [if_pos h1]
      have hnil : extractIntegrationIds nodes = [] := List.isEmpty_iff.mp h1
      constructor
      · intro h; exact absurd h (by simp)
      · rintro (⟨hne, _⟩ | ⟨r, _, hrid, _⟩)
        · exact absurd hnil hne
        · rw [hnil] at hrid; simp at hrid
    · rw [if_neg h1]
      have hne : extractIntegrationIds nodes ≠ [] := by
        intro hnil
        exact h1 (List.isEmpty_iff.mpr hnil)
      by_cases h2 : queryFails = true
      · rw [if_pos h2]
        exact ⟨fun _ => Or.inl ⟨hne, h2⟩, fun _ => rfl⟩
      · rw [if_neg h2]
        by_cases h3 : (((store.filter fun r =>
            (extractIntegrationIds nodes).contains r.id).filter fun r =>
            r.userId != userId).map (fun r => r.id)).isEmpty = true
        · rw [if_pos h3]
          have hinvnil := List.isEmpty_iff.mp h3
          constructor
          · intro h; exact absurd h (by simp)
          · rintro (⟨_, hq⟩ | ⟨r, hr, hrid, hru⟩)
            · exact absurd hq h2
            · have : r.id ∈ ((store.filter fun r =>
                  (extractIntegrationIds nodes).contains r.id).filter fun r =>
                  r.userId != userId).map (fun r => r.id) :=
                (hInv r.id).mpr ⟨r, hr, hrid, hru, rfl⟩
              rw [hinvnil] at this
              simp at this
        · rw [if_neg h3]
          have hinvne : (((store.filter fun r =>
              (extractIntegrationIds nodes).contains r.id).filter fun r =>
              r.userId != userId).map (fun r => r.id)) ≠ [] := by
            intro hnil
            exact h3 (List.isEmpty_iff.mpr hnil)
          constructor
          · intro _
            obtain ⟨x, hx⟩ := List.exists_mem_of_ne_nil _ hinvne
            obtain ⟨r, hr, hrid, hru, _⟩ := (hInv x).mp hx
            exact Or.inr ⟨r, hr, hrid, hru⟩
          · intro _; rfl
  · intro r hr hrid hru hq
    have h1 : (extractIntegrationIds nodes).isEmpty = false := by
      rcases h : (extractIntegrationIds nodes).isEmpty with _ | _
      · rfl
      · have := List.isEmpty_iff.mp h
        rw [this] at hrid
        simp at hrid
    have hmem : r.id ∈ ((store.filter fun rr =>
        (extractIntegrationIds nodes).contains rr.id).filter fun rr =>
        rr.userId != userId).map (fun rr => rr.id) :=
      (hInv r.id).mpr ⟨r, hr, hrid, hru, rfl⟩
    have h3 : (((store.filter fun rr =>
        (extractIntegrationIds nodes).contains rr.id).filter fun rr =>
        rr.userId != userId).map (fun rr => rr.id)).isEmpty = false := by
      rcases h : (((store.filter fun rr =>
          (extractIntegrationIds nodes).contains rr.id).filter fun rr =>
          rr.userId != userId).map (fun rr => rr.id)).isEmpty with _ | _
      · exact h
      · have hnil := List.isEmpty_iff.mp h
        rw [hnil] at hmem
        simp at hmem
    refine ⟨((store.filter fun rr =>
        (extractIntegrationIds nodes).contains rr.id).filter fun rr =>
        rr.userId != userId).map (fun rr => rr.id), ?_, hmem⟩
    simp only [validateWorkflowIntegrations]
    rw [if_neg (by rw [h1]; exact Bool.false_ne_true),
      if_neg (by rw [hq]; exact Bool.false_ne_true),
      if_neg (by rw [h3]; exact Bool.false_ne_true)]

theorem validate_workflow_integrations_spec_witness :
    ∃ ids, (validateWorkflowIntegrations [⟨"i1", "alice"⟩] false
      [⟨some ⟨some ⟨some (JsValue.str "i1")⟩⟩⟩] "bob").invalidIds =
        some ids ∧ "i1" ∈ ids :=
  (validate_workflow_integrations_spec [⟨"i1", "alice"⟩] false
    [⟨some ⟨some ⟨some (JsValue.str "i1")⟩⟩⟩] "bob").2
    ⟨"i1", "alice"⟩ (by decide) (by decide) (by decide) rfl

/-! ## Interpolation engine

Modelled from the spec: the template library
(`lib/workflow-executor` side of `\x7b\x7bNodeName.fieldPath\x7d\x7d`
references) is not among the provided sources.  Per §4.2 of the design
document: a template that is entirely one reference resolves to the
referenced field's original typed value; otherwise each reference is
substituted, stringified, into the surrounding text; `fieldPath` supports
dotted traversal and numeric array indices; a missing node or field
resolves to the empty string; non-string config values pass through
untouched. -/

def openBrace : Char := '\x7b'

def closeBrace : Char := '\x7d'

/-- Scan for the first `\x7d\x7d` and return the characters before it and
the remainder after it. -/
def splitAtClose : List Char → Option (List Char × List Char)
  | c1 :: c2 :: rest =>
    if c1 = closeBrace ∧ c2 = closeBrace then some ([], rest)
    else
      match splitAtClose (c2 :: rest) with
      | some (i, a) => some (c1 :: i, a)
      | none => none
  | _ => none
termination_by l => l.length

/-- Find the first complete `\x7b\x7b...\x7d\x7d` reference: returns
`(before, inner, after)`. -/
def findRef : List Char → Option (List Char × List Char × List Char)
  | c1 :: c2 :: rest =>
    if c1 = openBrace ∧ c2 = openBrace then
      match splitAtClose rest with
      | some (i, a) => some ([], i, a)
      | none => none
    else
      match findRef (c2 :: rest) with
      | some (b, i, a) => some (c1 :: b, i, a)
      | none => none
  | _ => none
termination_by l => l.length

/-- Split a reference body on `.` into name and path segments. -/
def splitOnDot : List Char → List (List Char)
  | [] => [[]]
  | c :: rest =>
    if c = '.' then [] :: splitOnDot rest
    else
      match splitOnDot rest with
      | [] => [[c]]
      | s :: ss => (c :: s) :: ss

def segToNatAux : List Char → Nat → Option Nat
  | [], acc => some acc
  | c :: rest, acc =>
    if c.isDigit then segToNatAux rest (acc * 10 + (c.toNat - 48)) else none

/-- A wholly numeric path segment, used as an array index. -/
def segToNat : List Char → Option Nat
  | [] => none
  | l => segToNatAux l 0

/-- One step of dotted traversal: object field lookup or numeric array
indexing. -/
def walkSeg (v : JsValue) (seg : List Char) : Option JsValue :=
  match v with
  | .obj fields =>
    (fields.find? (fun kv => kv.1 == String.mk seg)).map (fun kv => kv.2)
  | .arr es =>
    match segToNat seg with
    | some i => es.get? i
    | none => none
  | _ => none

def walkPath (v : JsValue) : List (List Char) → Option JsValue
  | [] => some v
  | seg :: rest =>
    match walkSeg v seg with
    | some v2 => walkPath v2 rest
    | none => none

/-- Resolve a reference body `Name.field.path` against the accumulated
node-output map; `none` when the node name or some path step is missing. -/
def resolveInner (outputs : List (String × JsValue))
    (inner : List Char) : Option JsValue :=
  match splitOnDot inner with
  | [] => none
  | nameSeg :: pathSegs =>
    match (outputs.find? (fun kv => kv.1 == String.mk nameSeg)).map
        (fun kv => kv.2) with
    | some v => walkPath v pathSegs
    | none => none

/-- A missing reference substitutes the empty string (lenient-by-design). -/
def resolveValue (outputs : List (String × JsValue))
    (inner : List Char) : JsValue :=
  (resolveInner outputs inner).getD (JsValue.str "")

theorem splitAtClose_length (l : List Char) :
    ∀ i a, splitAtClose l = some (i, a) → a.length < l.length := by
  induction l with
  | nil =>
    intro i a h
    simp only [splitAtClose] at h
    exact Option.noConfusion h
  | cons c1 tail ih =>
    intro i a h
    cases tail with
    | nil =>
      simp only [splitAtClose] at h
      exact Option.noConfusion h
    | cons c2 rest =>
      simp only [splitAtClose] at h
      by_cases hcc : c1 = closeBrace ∧ c2 = closeBrace
      · rw [if_pos hcc] at h
        injection h with h2
        rw [Prod.mk.injEq] at h2
        rw [← h2.2]
        simp only [List.length_cons]
        omega
      · rw [if_neg hcc] at h
        cases hrec : splitAtClose (c2 :: rest) with
        | none => rw [hrec] at h; exact Option.noConfusion h
        | some p =>
          obtain ⟨i2, a2⟩ := p
          rw [hrec] at h
          injection h with h2
          rw [Prod.mk.injEq] at h2
          have hlt := ih i2 a2 hrec
          rw [← h2.2]
          simp only [List.length_cons] at hlt ⊢
          omega

theorem findRef_length (l : List Char) :
    ∀ b i a, findRef l = some (b, i, a) → a.length < l.length := by
  induction l with
  | nil =>
    intro b i a h
    simp only [findRef] at h
    exact Option.noConfusion h
  | cons c1 tail ih =>
    intro b i a h
    cases tail with
    | nil =>
      simp only [findRef] at h
      exact Option.noConfusion h
    | cons c2 rest =>
      simp only [findRef] at h
      by_cases hcc : c1 = openBrace ∧ c2 = openBrace
      · rw [if_pos hcc] at h
        cases hsp : splitAtClose rest with
        | none => rw [hsp] at h; exact Option.noConfusion h
        | some p =>
          obtain ⟨i2, a2⟩ := p
          rw [hsp] at h
          injection h with h2
          rw [Prod.mk.injEq] at h2
          have h3 := h2.2
          rw [Prod.mk.injEq] at h3
          have hlt := splitAtClose_length rest i2 a2 hsp
          rw [← h3.2]
          simp only [List.length_cons]
          omega
      · rw [if_neg hcc] at h
        cases hrec : findRef (c2 :: rest) with
        | none => rw [hrec] at h; exact Option.noConfusion h
        | some t =>
          obtain ⟨b2, i2, a2⟩ := t
          rw [hrec] at h
          injection h with h2
          rw [Prod.mk.injEq] at h2
          have h3 := h2.2
          rw [Prod.mk.injEq] at h3
          have hlt := ih b2 i2 a2 hrec
          rw [← h3.2]
          simp only [List.length_cons] at hlt ⊢
          omega

/-- Substitute every reference in the template, stringified into the
surrounding text. -/
def replaceRefs (outputs : List (String × JsValue)) : List Char → List Char
  | l =>
    match h : findRef l with
    | none => l
    | some (b, i, a) =>
      b ++ (jsToString (resolveValue outputs i)).toList ++
        replaceRefs outputs a
termination_by l => l.length
decreasing_by exact findRef_length l b i a h

/-- Interpolate one string template: a template that is entirely a single
reference yields the resolved value itself (typed passthrough); anything
else is scanned and substituted as text. -/
def interpolateString (outputs : List (String × JsValue))
    (l : List Char) : JsValue :=
  match findRef l with
  | some ([], inner, []) => resolveValue outputs inner
  | _ => JsValue.str (String.mk (replaceRefs outputs l))

/-- Interpolate one configuration value: only string values are
interpolated, every other value passes through untouched. -/
def interpolate (outputs : List (String × JsValue)) : JsValue → JsValue
  | .str s => interpolateString outputs s.toList
  | v => v

theorem splitAtClose_append (x r : List Char)
    (hx : ∀ c ∈ x, c ≠ closeBrace) :
    splitAtClose (x ++ closeBrace :: closeBrace :: r) = some (x, r) := by
  induction x with
  | nil =>
    simp only [List.nil_append, splitAtClose, if_pos (And.intro rfl rfl)]
    simp
  | cons c x2 ih =>
    have hc : c ≠ closeBrace := hx c (List.mem_cons_self ..)
    have ih2 := ih (fun d hd => hx d (List.mem_cons_of_mem _ hd))
    cases hx2 : x2 ++ closeBrace :: closeBrace :: r with
    | nil => exact absurd hx2 (by simp)
    | cons d l1 =>
      rw [List.cons_append, hx2]
      simp only [splitAtClose]
      rw [if_neg (fun hand => hc hand.1), ← hx2, ih2]

theorem findRef_single (inner r : List Char)
    (h : ∀ c ∈ inner, c ≠ closeBrace) :
    findRef (openBrace :: openBrace ::
      (inner ++ closeBrace :: closeBrace :: r)) = some ([], inner, r) := by
  simp only [findRef, if_pos (And.intro rfl rfl),
    splitAtClose_append inner r h]
  simp

theorem findRef_prefix (p l : List Char) (hp : ∀ c ∈ p, c ≠ openBrace)
    (b i a : List Char) (hres : findRef l = some (b, i, a)) :
    findRef (p ++ l) = some (p ++ b, i, a) := by
  induction p with
  | nil => simpa using hres
  | cons c p2 ih =>
    have hc : c ≠ openBrace := hp c (List.mem_cons_self ..)
    have ih2 := ih (fun d hd => hp d (List.mem_cons_of_mem _ hd))
    have hl : ∃ d l1, p2 ++ l = d :: l1 := by
      cases hpl : p2 ++ l with
      | nil =>
        have hlnil : l = [] := (List.append_eq_nil.mp hpl).2
        rw [hlnil] at hres
        simp only [findRef] at hres
        exact Option.noConfusion hres
      | cons d l1 => exact ⟨d, l1, rfl⟩
    obtain ⟨d, l1, hdl⟩ := hl
    rw [List.cons_append, hdl]
    simp only [findRef]
    rw [if_neg (fun hand => hc hand.1), ← hdl, ih2]
    simp

theorem replaceRefs_of_findRef_none (outputs : List (String × JsValue))
    (l : List Char) (h : findRef l = none) :
    replaceRefs outputs l = l := by
  rw [replaceRefs]
  split
  · rfl
  · next b i a heq =>
    rw [h] at heq
    exact Option.noConfusion heq

theorem replaceRefs_nil (outputs : List (String × JsValue)) :
    replaceRefs outputs [] = [] :=
  replaceRefs_of_findRef_none outputs [] (by simp only [findRef])

/-- C2: against any node-output map, a template that is entirely one
reference `\x7b\x7bName.path\x7d\x7d` interpolates to the referenced
field's original typed value (e.g. the number 42, not a string), while
the same reference embedded in surrounding text interpolates to a string
with the value stringified in place. -/
theorem interpolation_single_ref_and_text
    (outputs : List (String × JsValue)) (inner pre : List Char)
    (v : JsValue)
    (hinner : ∀ c ∈ inner, c ≠ openBrace ∧ c ≠ closeBrace)
    (hpre1 : pre ≠ [])
    (hpre2 : ∀ c ∈ pre, c ≠ openBrace)
    (hres : resolveInner outputs inner = some v) :
    interpolate outputs (JsValue.str (String.mk (openBrace :: openBrace ::
      (inner ++ closeBrace :: closeBrace :: [])))) = v
    ∧ interpolate outputs (JsValue.str (String.mk
      (pre ++ openBrace :: openBrace ::
        (inner ++ closeBrace :: closeBrace :: [])))) =
      JsValue.str (String.mk (pre ++ (jsToString v).toList)) := by
  have hf1 := findRef_single inner [] (fun c hc => (hinner c hc).2)
  have hf2 := findRef_prefix pre _ hpre2 _ _ _ hf1
  rw [List.append_nil] at hf2
  constructor
  · show interpolateString outputs (openBrace :: openBrace ::
      (inner ++ closeBrace :: closeBrace :: [])) = v
    unfold interpolateString
    rw [hf1]
    show resolveValue outputs inner = v
    unfold resolveValue
    rw [hres]
    rfl
  · have hrv : resolveValue outputs inner = v := by
      unfold resolveValue
      rw [hres]
      rfl
    obtain ⟨p0, pre2, hpc⟩ : ∃ p0 pre2, pre = p0 :: pre2 := by
      cases pre with
      | nil => exact absurd rfl hpre1
      | cons p0 pre2 => exact ⟨p0, pre2, rfl⟩
    subst hpc
    show interpolateString outputs ((p0 :: pre2) ++ openBrace :: openBrace ::
      (inner ++ closeBrace :: closeBrace :: [])) = _
    unfold interpolateString
    rw [hf2]
    show JsValue.str (String.mk (replaceRefs outputs
      ((p0 :: pre2) ++ openBrace :: openBrace ::
        (inner ++ closeBrace :: closeBrace :: [])))) = _
    rw [replaceRefs]
    split
    · next heq =>
      rw [hf2] at heq
      exact Option.noConfusion heq
    · next b i a heq =>
      rw [hf2] at heq
      injection heq with heq2
      rw [Prod.mk.injEq] at heq2
      have heq3 := heq2.2
      rw [Prod.mk.injEq] at heq3
      rw [← heq2.1, ← heq3.1, ← heq3.2, replaceRefs_nil, List.append_nil,
        hrv]

theorem interpolation_single_ref_and_text_witness :
    interpolate [("A", JsValue.obj [("value", JsValue.num 42)])]
      (JsValue.str (String.mk (openBrace :: openBrace ::
        (['A', '.', 'v', 'a', 'l', 'u', 'e'] ++
          closeBrace :: closeBrace :: [])))) = JsValue.num 42
    ∧ interpolate [("A", JsValue.obj [("value", JsValue.num 42)])]
      (JsValue.str (String.mk (['x', '='] ++ openBrace :: openBrace ::
        (['A', '.', 'v', 'a', 'l', 'u', 'e'] ++
          closeBrace :: closeBrace :: [])))) =
      JsValue.str (String.mk (['x', '='] ++
        (jsToString (JsValue.num 42)).toList)) :=
  interpolation_single_ref_and_text
    [("A", JsValue.obj [("value", JsValue.num 42)])]
    ['A', '.', 'v', 'a', 'l', 'u', 'e'] ['x', '='] (JsValue.num 42)
    (by decide) (by decide) (by decide) (by rfl)

/-! ## Workflow executor

Modelled from the spec: `lib/workflow-executor.workflow` is not among the
provided sources (only its callers are).  Per §4.1/§4.3/§7 of the design
document: dependency ordering is Kahn-style in-degree elimination with
ties broken by original array order, failing the whole execution with a
structural error before any node runs when a cycle is detected; execution
walks the order, resolves each node's configuration through the
interpolation engine, dispatches the (external) action handler, and on a
`success: false` result marks the node `error` and halts propagation to
all downstream nodes, which are recorded `skipped` and never executed;
the terminal status is `error` when any node errored, with the first
failing node's message.  The trigger input is absorbed into the `handler`
parameter (the trigger node's handler returns the trigger payload). -/

structure WNode where
  id : String
  ntype : String
  name : String
  config : List (String × JsValue)
deriving Repr

structure WEdge where
  source : String
  target : String
  branch : Option String
deriving Repr

inductive NodeStatus where
  | success
  | error
  | skipped
deriving Repr, DecidableEq

/-- The discriminated result an action handler returns. -/
structure StepResult where
  success : Bool
  output : List (String × JsValue)
  errorMsg : Option String
deriving Repr

/-- In-degree test over the still-unordered nodes: an incoming edge whose
source is itself still unordered blocks a node. -/
def hasIncomingB (remaining : List WNode) (edges : List WEdge)
    (n : WNode) : Bool :=
  edges.any fun e => e.target == n.id &&
    remaining.any fun m => m.id == e.source

/-- The first remaining node (original array order) with no remaining
in-degree. -/
def pickNext (remaining : List WNode) (edges : List WEdge) : Option WNode :=
  remaining.find? fun n => !(hasIncomingB remaining edges n)

def cycleErrorMsg : String := "Cycle detected in workflow graph"

/-- Kahn-style elimination: repeatedly emit the first zero-in-degree node
and drop it; failure when none can be emitted. -/
def kahnAux (edges : List WEdge) :
    Nat → List WNode → List WNode → Except String (List WNode)
  | _, [], acc => .ok acc.reverse
  | 0, _ :: _, _ => .error cycleErrorMsg
  | fuel + 1, r1 :: r2, acc =>
    match pickNext (r1 :: r2) edges with
    | none => .error cycleErrorMsg
    | some n =>
      kahnAux edges fuel ((r1 :: r2).filter fun m => !(m.id == n.id))
        (n :: acc)

/-- Dependency ordering: a topological order, or a structural error on a
cycle. -/
def dependencyOrder (nodes : List WNode) (edges : List WEdge) :
    Except String (List WNode) :=
  kahnAux edges nodes.length nodes []

/-- Log writes the executor performs (one start and one completion per
executed node, a skip record for skipped nodes). -/
inductive ExecLog where
  | started (nodeId : String)
  | completed (nodeId : String) (status : NodeStatus)
  | skippedNode (nodeId : String)
deriving Repr

structure ExecState where
  statuses : List (String × NodeStatus)
  outputs : List (String × JsValue)
  executed : List String
  firstError : Option String
  logs : List ExecLog
deriving Repr

def statusLookup (l : List (String × NodeStatus)) (id : String) :
    Option NodeStatus :=
  (l.find? fun p => p.1 == id).map fun p => p.2

/-- A predecessor in status `error` or `skipped` halts propagation. -/
def isHalting : Option NodeStatus → Bool
  | some .error => true
  | some .skipped => true
  | _ => false

def blockedBy (edges : List WEdge) (st : ExecState) (n : WNode) : Bool :=
  edges.any fun e => e.target == n.id &&
    isHalting (statusLookup st.statuses e.source)

/-- Resolve a node's configuration against the accumulated
display-name → output map (§4.3 step 1). -/
def resolveNodeConfig (cfg : List (String × JsValue))
    (outputs : List (String × JsValue)) : List (String × JsValue) :=
  cfg.map fun kv => (kv.1, interpolate outputs kv.2)

/-- Process one node in dependency order: skip it when a predecessor
failed or was skipped, otherwise dispatch its handler and record the
result (§4.3 steps 2-4). -/
def execStep (handler : WNode → List (String × JsValue) → StepResult)
    (edges : List WEdge) (st : ExecState) (n : WNode) : ExecState :=
  if blockedBy edges st n then
    { st with
      statuses := (n.id, NodeStatus.skipped) :: st.statuses
      logs := st.logs ++ [ExecLog.skippedNode n.id] }
  else
    let r := handler n (resolveNodeConfig n.config st.outputs)
    if r.success then
      { statuses := (n.id, NodeStatus.success) :: st.statuses
        outputs := (n.name, JsValue.obj r.output) :: st.outputs
        executed := st.executed ++ [n.id]
        firstError := st.firstError
        logs := st.logs ++ [ExecLog.started n.id,
          ExecLog.completed n.id NodeStatus.success] }
    else
      { statuses := (n.id, NodeStatus.error) :: st.statuses
        outputs := st.outputs
        executed := st.executed ++ [n.id]
        firstError :=
          match st.firstError with
          | some e => some e
          | none => some (r.errorMsg.getD "Step execution failed")
        logs := st.logs ++ [ExecLog.started n.id,
          ExecLog.completed n.id NodeStatus.error] }

def initState : ExecState := ⟨[], [], [], none, []⟩

def runOrder (handler : WNode → List (String × JsValue) → StepResult)
    (edges : List WEdge) : List WNode → ExecState → ExecState
  | [], st => st
  | n :: rest, st => runOrder handler edges rest (execStep handler edges st n)

structure ExecResult where
  status : String
  errorMsg : Option String
  nodeStatuses : List (String × NodeStatus)
  executed : List String
  logs : List ExecLog
deriving Repr

/-- The executor: order the graph (structural failure before any node log
is created or any node executes), then walk the order; the terminal
status is `error` when any node errored (§4.3 step 6). -/
def executeWorkflow (handler : WNode → List (String × JsValue) → StepResult)
    (nodes : List WNode) (edges : List WEdge) : ExecResult :=
  match dependencyOrder nodes edges with
  | .error e => ⟨"error", some e, [], [], []⟩
  | .ok order =>
    let fin := runOrder handler edges order initState
    ⟨if fin.statuses.any fun p => p.2 == NodeStatus.error then "error"
      else "success",
     fin.firstError, fin.statuses, fin.executed, fin.logs⟩

/-- Edge existence as a Boolean. -/
def hasEdgeB (edges : List WEdge) (u v : String) : Bool :=
  edges.any fun e => e.source == u && e.target == v

/-- A non-empty directed path. -/
inductive EdgePathP (edges : List WEdge) : String → String → Prop
  | single {u v : String} : hasEdgeB edges u v = true → EdgePathP edges u v
  | snoc {u v w : String} : EdgePathP edges u v →
      hasEdgeB edges v w = true → EdgePathP edges u w

/-- Reachability (reflexive-transitive closure of the edge relation). -/
inductive Reaches (edges : List WEdge) : String → String → Prop
  | refl (v : String) : Reaches edges v v
  | step {u v w : String} : hasEdgeB edges u v = true →
      Reaches edges v w → Reaches edges u w

def chainB (edges : List WEdge) : List String → Bool
  | a :: b :: rest => hasEdgeB edges a b && chainB edges (b :: rest)
  | _ => true

/-- `c` lists the vertices of a directed cycle among the graph's nodes:
consecutive members are joined by edges, the last loops back to the
first, and every member is the id of a node in the graph. -/
def isCycleList (nodes : List WNode) (edges : List WEdge)
    (c : List String) : Bool :=
  match c with
  | [] => false
  | v :: rest =>
    chainB edges (v :: rest) &&
    hasEdgeB edges ((v :: rest).getLastD v) v &&
    (v :: rest).all fun x => nodes.any fun n => n.id == x

theorem chainB_preds (edges : List WEdge) (l : List String) :
    ∀ a, chainB edges (a :: l) = true →
      ∀ v ∈ l, ∃ u ∈ a :: l, hasEdgeB edges u v = true := by
  induction l with
  | nil =>
    intro a _ v hv
    simp at hv
  | cons b rest ih =>
    intro a hch v hv
    have hch2 : hasEdgeB edges a b = true ∧ chainB edges (b :: rest) = true := by
      simpa only [chainB, Bool.and_eq_true] using hch
    rcases List.mem_cons.mp hv with hv | hv
    · subst hv
      exact ⟨a, List.mem_cons_self .., hch2.1⟩
    · obtain ⟨u, hu, he⟩ := ih b hch2.2 v hv
      exact ⟨u, List.mem_cons_of_mem _ hu, he⟩

theorem getLastD_cons_mem (l : List String) :
    ∀ a d, (a :: l).getLastD d ∈ a :: l := by
  induction l with
  | nil =>
    intro a d
    simp [List.getLastD]
  | cons b rest ih =>
    intro a d
    rw [List.getLastD_cons]
    have h1 : (b :: rest).getLastD a ∈ b :: rest := by
      have := ih b a
      rw [List.getLastD_cons] at this ⊢
      exact this
    exact List.mem_cons_of_mem _ h1

/-- While every member of a closed set `c` (each member has a
predecessor inside `c`) remains unordered, no member of `c` is ever
pickable, so Kahn elimination must fail. -/
theorem kahnAux_stuck (edges : List WEdge) (c : List String)
    (hcne : c ≠ [])
    (hpred : ∀ v ∈ c, ∃ u ∈ c, hasEdgeB edges u v = true) :
    ∀ fuel (remaining acc : List WNode),
      (∀ v ∈ c, ∃ n ∈ remaining, n.id = v) →
      kahnAux edges fuel remaining acc = .error cycleErrorMsg := by
  intro fuel
  induction fuel with
  | zero =>
    intro remaining acc hrem
    obtain ⟨v, hv⟩ := List.exists_mem_of_ne_nil c hcne
    obtain ⟨n, hn, _⟩ := hrem v hv
    cases remaining with
    | nil => simp at hn
    | cons r1 r2 => rfl
  | succ fuel ih =>
    intro remaining acc hrem
    obtain ⟨v0, hv0⟩ := List.exists_mem_of_ne_nil c hcne
    obtain ⟨n0, hn0, _⟩ := hrem v0 hv0
    cases remaining with
    | nil => simp at hn0
    | cons r1 r2 =>
      simp only [kahnAux]
      cases hpick : pickNext (r1 :: r2) edges with
      | none => rfl
      | some n =>
        have hfind := List.find?_some hpick
        have hnidc : n.id ∉ c := by
          intro hin
          obtain ⟨u, hu, hedge⟩ := hpred n.id hin
          obtain ⟨m, hm, hmid⟩ := hrem u hu
          have hinc : hasIncomingB (r1 :: r2) edges n = true := by
            simp only [hasEdgeB, List.any_eq_true, Bool.and_eq_true,
              beq_iff_eq] at hedge
            obtain ⟨e, he, hes, het⟩ := hedge
            simp only [hasIncomingB, List.any_eq_true, Bool.and_eq_true,
              beq_iff_eq]
            exact ⟨e, he, het, m, hm, by rw [hmid, hes]⟩
          rw [hinc] at hfind
          simp at hfind
        apply ih
        intro v hv
        obtain ⟨m, hm, hmid⟩ := hrem v hv
        refine ⟨m, List.mem_filter.mpr ⟨hm, ?_⟩, hmid⟩
        simp only [Bool.not_eq_true', beq_eq_false_iff_ne, ne_eq]
        intro heq
        rw [hmid] at heq
        exact hnidc (heq ▸ hv)

/-- C3: a graph whose edge set contains a cycle reachable from a trigger
node fails dependency ordering with a structural error, before any node
executes and before any node execution log is created: the result records
the error with empty status, executed and log lists. -/
theorem cycle_fails_before_any_execution
    (handler : WNode → List (String × JsValue) → StepResult)
    (nodes : List WNode) (edges : List WEdge) (c : List String) (t : WNode)
    (hcyc : isCycleList nodes edges c = true)
    (ht : t ∈ nodes) (htt : t.ntype = "trigger")
    (hreach : ∃ v ∈ c, Reaches edges t.id v) :
    dependencyOrder nodes edges = .error cycleErrorMsg ∧
    executeWorkflow handler nodes edges =
      ⟨"error", some cycleErrorMsg, [], [], []⟩ := by
  obtain ⟨v, rest, hc⟩ : ∃ v rest, c = v :: rest := by
    cases c with
    | nil => simp [isCycleList] at hcyc
    | cons v rest => exact ⟨v, rest, rfl⟩
  subst hc
  have hparts : chainB edges (v :: rest) = true ∧
      hasEdgeB edges ((v :: rest).getLastD v) v = true ∧
      ((v :: rest).all fun x => nodes.any fun n => n.id == x) = true := by
    simpa only [isCycleList, Bool.and_eq_true, and_assoc] using hcyc
  have hpred : ∀ x ∈ v :: rest, ∃ u ∈ v :: rest, hasEdgeB edges u x = true := by
    intro x hx
    rcases List.mem_cons.mp hx with hx | hx
    · subst hx
      exact ⟨(x :: rest).getLastD x, getLastD_cons_mem rest x x, hparts.2.1⟩
    · exact chainB_preds edges rest v hparts.1 x hx
  have hrem : ∀ x ∈ v :: rest, ∃ n ∈ nodes, n.id = x := by
    intro x hx
    have := hparts.2.2
    rw [List.all_eq_true] at this
    have h2 := this x hx
    rw [List.any_eq_true] at h2
    obtain ⟨n, hn, hni⟩ := h2
    exact ⟨n, hn, by simpa using hni⟩
  have hdep : dependencyOrder nodes edges = .error cycleErrorMsg :=
    kahnAux_stuck edges (v :: rest) (by simp) hpred nodes.length nodes [] hrem
  refine ⟨hdep, ?_⟩
  unfold executeWorkflow
  rw [hdep]

theorem cycle_fails_before_any_execution_witness :
    dependencyOrder
      [⟨"t", "trigger", "Trigger", []⟩, ⟨"a", "action", "A", []⟩,
       ⟨"b", "action", "B", []⟩]
      [⟨"t", "a", none⟩, ⟨"a", "b", none⟩, ⟨"b", "a", none⟩] =
      .error cycleErrorMsg ∧
    executeWorkflow (fun _ _ => ⟨true, [], none⟩)
      [⟨"t", "trigger", "Trigger", []⟩, ⟨"a", "action", "A", []⟩,
       ⟨"b", "action", "B", []⟩]
      [⟨"t", "a", none⟩, ⟨"a", "b", none⟩, ⟨"b", "a", none⟩] =
      ⟨"error", some cycleErrorMsg, [], [], []⟩ :=
  cycle_fails_before_any_execution (fun _ _ => ⟨true, [], none⟩)
    [⟨"t", "trigger", "Trigger", []⟩, ⟨"a", "action", "A", []⟩,
     ⟨"b", "action", "B", []⟩]
    [⟨"t", "a", none⟩, ⟨"a", "b", none⟩, ⟨"b", "a", none⟩]
    ["a", "b"] ⟨"t", "trigger", "Trigger", []⟩
    (by decide) (List.Mem.head _) (by decide)
    ⟨"a", by decide,
     @Reaches.step [⟨"t", "a", none⟩, ⟨"a", "b", none⟩, ⟨"b", "a", none⟩]
       "t" "a" "a" (by decide) (Reaches.refl "a")⟩

theorem nodup_map_id_inj (l : List WNode)
    (h : (l.map fun n => n.id).Nodup) :
    ∀ a ∈ l, ∀ b ∈ l, a.id = b.id → a = b := by
  intro a ha b hb heq
  exact List.inj_on_of_nodup_map h ha hb heq

theorem hasIncomingB_false (remaining : List WNode) (edges : List WEdge)
    (n : WNode) (h : hasIncomingB remaining edges n = false) :
    ∀ e ∈ edges, e.target = n.id → ∀ m ∈ remaining, m.id ≠ e.source := by
  intro e he het m hm heq
  have htrue : hasIncomingB remaining edges n = true := by
    simp only [hasIncomingB, List.any_eq_true, Bool.and_eq_true, beq_iff_eq]
    exact ⟨e, he, het, m, hm, heq⟩
  rw [htrue] at h
  exact Bool.noConfusion h

/-- Correctness facts of the Kahn elimination: on success, the produced
order has pairwise-distinct ids, lists exactly the remaining nodes after
the accumulator, and places the source of every edge strictly before its
target. -/
theorem kahnAux_main (edges : List WEdge) :
    ∀ (fuel : Nat) (r acc order : List WNode),
      (r.map fun n => n.id).Nodup →
      (acc.map fun n => n.id).Nodup →
      (∀ a ∈ acc, ∀ x ∈ r, a.id ≠ x.id) →
      kahnAux edges fuel r acc = .ok order →
      ((order.map fun n => n.id).Nodup ∧
       ∃ suffix, order = acc.reverse ++ suffix ∧
         (∀ x ∈ r, x ∈ suffix) ∧ (∀ x ∈ suffix, x ∈ r) ∧
         (∀ l₁ b l₂, suffix = l₁ ++ b :: l₂ →
           ∀ e ∈ edges, e.target = b.id →
             (∃ s ∈ r, s.id = e.source) → ∃ s ∈ l₁, s.id = e.source)) := by
  intro fuel
  induction fuel with
  | zero =>
    intro r acc order hnr hna hdis hrun
    cases r with
    | nil =>
      simp only [kahnAux, Except.ok.injEq] at hrun
      subst hrun
      refine ⟨by simpa using hna, [], by simp, ?_, ?_, ?_⟩
      · intro x hx; simp at hx
      · intro x hx; simp at hx
      · intro l₁ b l₂ hsplit
        exact absurd hsplit.symm (List.append_ne_nil_of_right_ne_nil _ (by simp))
    | cons r1 r2 =>
      simp only [kahnAux] at hrun
      exact Except.noConfusion hrun
  | succ fuel ih =>
    intro r acc order hnr hna hdis hrun
    cases r with
    | nil =>
      simp only [kahnAux, Except.ok.injEq] at hrun
      subst hrun
      refine ⟨by simpa using hna, [], by simp, ?_, ?_, ?_⟩
      · intro x hx; simp at hx
      · intro x hx; simp at hx
      · intro l₁ b l₂ hsplit
        exact absurd hsplit.symm (List.append_ne_nil_of_right_ne_nil _ (by simp))
    | cons r1 r2 =>
      simp only [kahnAux] at hrun
      cases hpick : pickNext (r1 :: r2) edges with
      | none =>
        rw [hpick] at hrun
        exact Except.noConfusion hrun
      | some n =>
        rw [hpick] at hrun
        replace hrun : kahnAux edges fuel
            ((r1 :: r2).filter fun m => !(m.id == n.id)) (n :: acc) =
            .ok order := hrun
        have hnmem : n ∈ r1 :: r2 := List.mem_of_find?_eq_some hpick
        have hninc : hasIncomingB (r1 :: r2) edges n = false := by
          have := List.find?_some hpick
          simpa only [Bool.not_eq_true'] using this
        have hfilsub : List.Sublist
            ((r1 :: r2).filter fun m => !(m.id == n.id))
            (r1 :: r2) := List.filter_sublist _
        have hnr' : ((((r1 :: r2).filter fun m => !(m.id == n.id)).map
            fun nd => nd.id)).Nodup :=
          ((hfilsub.map fun nd => nd.id).nodup hnr)
        have hna' : (((n :: acc)).map fun nd => nd.id).Nodup := by
          simp only [List.map_cons, List.nodup_cons]
          refine ⟨?_, hna⟩
          intro hmem
          obtain ⟨a, ha, haid⟩ := List.mem_map.mp hmem
          exact hdis a ha n hnmem haid
        have hdis' : ∀ a ∈ n :: acc,
            ∀ x ∈ (r1 :: r2).filter fun m => !(m.id == n.id),
              a.id ≠ x.id := by
          intro a ha x hx
          have hxprop := List.of_mem_filter hx
          have hxmem := List.mem_of_mem_filter hx
          simp only [Bool.not_eq_true', beq_eq_false_iff_ne, ne_eq] at hxprop
          rcases List.mem_cons.mp ha with ha | ha
          · subst ha
            intro heq
            exact hxprop heq.symm
          · exact hdis a ha x hxmem
        obtain ⟨hnodup, suffix', hord, hcompl', hsub', hsort'⟩ :=
          ih _ (n :: acc) order hnr' hna' hdis' hrun
        refine ⟨hnodup, n :: suffix', ?_, ?_, ?_, ?_⟩
        · rw [hord, List.reverse_cons, List.append_assoc]
          rfl
        · intro x hx
          by_cases hxid : x.id = n.id
          · have : x = n := nodup_map_id_inj _ hnr x hx n hnmem hxid
            rw [this]
            exact List.mem_cons_self ..
          · have : x ∈ (r1 :: r2).filter fun m => !(m.id == n.id) :=
              List.mem_filter.mpr ⟨hx, by
                simp only [Bool.not_eq_true', beq_eq_false_iff_ne, ne_eq]
                exact hxid⟩
            exact List.mem_cons_of_mem _ (hcompl' x this)
        · intro x hx
          rcases List.mem_cons.mp hx with hx | hx
          · rw [hx]; exact hnmem
          · exact List.mem_of_mem_filter (hsub' x hx)
        · intro l₁ b l₂ hsplit e he het hsource
          cases l₁ with
          | nil =>
            simp only [List.nil_append, List.cons.injEq] at hsplit
            obtain ⟨s, hs, hsid⟩ := hsource
            have := hasIncomingB_false _ _ _ hninc e he
              (by rw [het, hsplit.1]) s hs
            exact absurd hsid this
          | cons q l₁' =>
            simp only [List.cons_append, List.cons.injEq] at hsplit
            obtain ⟨s, hs, hsid⟩ := hsource
            by_cases hsn : s.id = n.id
            · refine ⟨n, ?_, by rw [← hsn, hsid]⟩
              rw [← hsplit.1]
              exact List.mem_cons_self ..
            · have hs' : s ∈ (r1 :: r2).filter fun m => !(m.id == n.id) :=
                List.mem_filter.mpr ⟨hs, by
                  simp only [Bool.not_eq_true', beq_eq_false_iff_ne, ne_eq]
                  exact hsn⟩
              obtain ⟨s2, hs2, hs2id⟩ :=
                hsort' l₁' b l₂ hsplit.2 e he het ⟨s, hs', hsid⟩
              exact ⟨s2, List.mem_cons_of_mem _ hs2, hs2id⟩

theorem runOrder_append
    (handler : WNode → List (String × JsValue) → StepResult)
    (edges : List WEdge) (l₁ l₂ : List WNode) :
    ∀ st, runOrder handler edges (l₁ ++ l₂) st =
      runOrder handler edges l₂ (runOrder handler edges l₁ st) := by
  induction l₁ with
  | nil => intro st; rfl
  | cons n rest ih =>
    intro st
    simp only [List.cons_append, runOrder]
    exact ih _

theorem execStep_statuses
    (handler : WNode → List (String × JsValue) → StepResult)
    (edges : List WEdge) (st : ExecState) (n : WNode) :
    ∃ s, (execStep handler edges st n).statuses = (n.id, s) :: st.statuses := by
  simp only [execStep]
  split
  · exact ⟨NodeStatus.skipped, rfl⟩
  · split
    · exact ⟨NodeStatus.success, rfl⟩
    · exact ⟨NodeStatus.error, rfl⟩

theorem execStep_executed
    (handler : WNode → List (String × JsValue) → StepResult)
    (edges : List WEdge) (st : ExecState) (n : WNode) :
    (execStep handler edges st n).executed = st.executed ∨
    (execStep handler edges st n).executed = st.executed ++ [n.id] := by
  simp only [execStep]
  split
  · exact Or.inl rfl
  · split
    · exact Or.inr rfl
    · exact Or.inr rfl

theorem execStep_blocked
    (handler : WNode → List (String × JsValue) → StepResult)
    (edges : List WEdge) (st : ExecState) (n : WNode)
    (hb : blockedBy edges st n = true) :
    (execStep handler edges st n).statuses =
      (n.id, NodeStatus.skipped) :: st.statuses ∧
    (execStep handler edges st n).executed = st.executed := by
  simp only [execStep, if_pos hb]
  exact ⟨trivial, trivial⟩

theorem statusLookup_cons_ne (l : List (String × NodeStatus))
    (idn x : String) (s : NodeStatus) (h : idn ≠ x) :
    statusLookup ((idn, s) :: l) x = statusLookup l x := by
  have hbeq : (idn == x) = false := beq_eq_false_iff_ne.mpr h
  simp [statusLookup, List.find?_cons, hbeq]

theorem statusLookup_cons_self (l : List (String × NodeStatus))
    (idn : String) (s : NodeStatus) :
    statusLookup ((idn, s) :: l) idn = some s := by
  simp [statusLookup, List.find?_cons]

theorem statusLookup_runOrder_stable
    (handler : WNode → List (String × JsValue) → StepResult)
    (edges : List WEdge) (l : List WNode) :
    ∀ st x, (∀ nd ∈ l, nd.id ≠ x) →
      statusLookup (runOrder handler edges l st).statuses x =
        statusLookup st.statuses x := by
  induction l with
  | nil => intro st x _; rfl
  | cons nd rest ih =>
    intro st x hx
    have h1 := ih (execStep handler edges st nd) x
      (fun d hd => hx d (List.mem_cons_of_mem _ hd))
    have h2 : runOrder handler edges (nd :: rest) st =
        runOrder handler edges rest (execStep handler edges st nd) := rfl
    rw [h2, h1]
    obtain ⟨s, hs⟩ := execStep_statuses handler edges st nd
    rw [hs]
    exact statusLookup_cons_ne _ _ _ _ (hx nd (List.mem_cons_self ..))

theorem executed_runOrder_stable
    (handler : WNode → List (String × JsValue) → StepResult)
    (edges : List WEdge) (l : List WNode) :
    ∀ st x, (∀ nd ∈ l, nd.id ≠ x) →
      (x ∈ (runOrder handler edges l st).executed ↔ x ∈ st.executed) := by
  induction l with
  | nil => intro st x _; exact Iff.rfl
  | cons nd rest ih =>
    intro st x hx
    have h1 := ih (execStep handler edges st nd) x
      (fun d hd => hx d (List.mem_cons_of_mem _ hd))
    have h2 : runOrder handler edges (nd :: rest) st =
        runOrder handler edges rest (execStep handler edges st nd) := rfl
    rw [h2]
    refine h1.trans ?_
    rcases execStep_executed handler edges st nd with he | he
    · rw [he]
    · rw [he]
      simp only [List.mem_append, List.mem_singleton]
      constructor
      · rintro (h | h)
        · exact h
        · exact absurd h.symm (hx nd (List.mem_cons_self ..))
      · exact Or.inl

/-- A node whose predecessor along some edge ended in a halting status
(`error` or `skipped`) is recorded `skipped` and never executed. -/
theorem skip_propagation_step
    (handler : WNode → List (String × JsValue) → StepResult)
    (edges : List WEdge) (nodes order : List WNode)
    (hond : (order.map fun nd => nd.id).Nodup)
    (hsort : ∀ l₁ b l₂, order = l₁ ++ b :: l₂ →
      ∀ e ∈ edges, e.target = b.id →
        (∃ s ∈ nodes, s.id = e.source) → ∃ s ∈ l₁, s.id = e.source)
    (u : String) (m : WNode) (hm : m ∈ order)
    (hedge : hasEdgeB edges u m.id = true)
    (hu : ∃ s ∈ nodes, s.id = u)
    (hustat : isHalting (statusLookup
      (runOrder handler edges order initState).statuses u) = true) :
    statusLookup (runOrder handler edges order initState).statuses m.id =
      some NodeStatus.skipped ∧
    m.id ∉ (runOrder handler edges order initState).executed := by
  obtain ⟨l₁, l₂, hsplit⟩ := List.append_of_mem hm
  obtain ⟨e, he, hes, het⟩ : ∃ e ∈ edges, e.source = u ∧ e.target = m.id := by
    simpa only [hasEdgeB, List.any_eq_true, Bool.and_eq_true, beq_iff_eq]
      using hedge
  obtain ⟨s, hsl, hsid⟩ := hsort l₁ m l₂ hsplit e he (by rw [het])
    (by obtain ⟨s0, hs0, hs0id⟩ := hu; exact ⟨s0, hs0, by rw [hs0id, hes]⟩)
  subst hsplit
  have hond2 := hond
  rw [List.map_append, List.nodup_append] at hond2
  have hu_not_tail : ∀ nd ∈ m :: l₂, nd.id ≠ e.source := by
    intro nd hnd heq
    have h1 : e.source ∈ l₁.map fun x => x.id :=
      List.mem_map.mpr ⟨s, hsl, hsid⟩
    have h2 : e.source ∈ (m :: l₂).map fun x => x.id :=
      List.mem_map.mpr ⟨nd, hnd, heq⟩
    exact hond2.2.2 h1 h2
  have hm_not_l₂ : ∀ nd ∈ l₂, nd.id ≠ m.id := by
    intro nd hnd heq
    have h3 := hond2.2.1
    simp only [List.map_cons, List.nodup_cons] at h3
    exact h3.1 (List.mem_map.mpr ⟨nd, hnd, heq⟩)
  have hm_not_l₁ : ∀ nd ∈ l₁, nd.id ≠ m.id := by
    intro nd hnd heq
    have h1 : m.id ∈ l₁.map fun x => x.id :=
      List.mem_map.mpr ⟨nd, hnd, heq⟩
    have h2 : m.id ∈ (m :: l₂).map fun x => x.id :=
      List.mem_map.mpr ⟨m, List.mem_cons_self .., rfl⟩
    exact hond2.2.2 h1 h2
  have hF : runOrder handler edges (l₁ ++ m :: l₂) initState =
      runOrder handler edges l₂ (execStep handler edges
        (runOrder handler edges l₁ initState) m) := by
    rw [runOrder_append]
    rfl
  have hFm : runOrder handler edges (l₁ ++ m :: l₂) initState =
      runOrder handler edges (m :: l₂)
        (runOrder handler edges l₁ initState) := by
    rw [runOrder_append]
  have hu_stat₁ : isHalting (statusLookup
      (runOrder handler edges l₁ initState).statuses e.source) = true := by
    rw [hFm, ← hes] at hustat
    rw [statusLookup_runOrder_stable handler edges (m :: l₂) _ _
      hu_not_tail] at hustat
    exact hustat
  have hblock : blockedBy edges
      (runOrder handler edges l₁ initState) m = true := by
    simp only [blockedBy, List.any_eq_true, Bool.and_eq_true, beq_iff_eq]
    exact ⟨e, he, het, hu_stat₁⟩
  obtain ⟨hstat_eq, hexec_eq⟩ := execStep_blocked handler edges
    (runOrder handler edges l₁ initState) m hblock
  constructor
  · rw [hF, statusLookup_runOrder_stable handler edges l₂ _ _ hm_not_l₂,
      hstat_eq]
    exact statusLookup_cons_self _ _ _
  · rw [hF, executed_runOrder_stable handler edges l₂ _ _ hm_not_l₂,
      hexec_eq, executed_runOrder_stable handler edges l₁ _ _ hm_not_l₁]
    simp [initState]

/-- C1: fail-fast.  In a well-formed graph (distinct node ids, edge
endpoints among the nodes), if node `n` is recorded `error` — which the
executor does exactly when `n`'s action handler returned
`success: false` — then every node reachable from `n` (in particular
every node reachable only through `n`) is recorded `skipped` and never
executed, and the execution's terminal status is `error`. -/
theorem failure_skips_downstream
    (handler : WNode → List (String × JsValue) → StepResult)
    (nodes : List WNode) (edges : List WEdge) (n m : WNode)
    (hwfids : (nodes.map fun x => x.id).Nodup)
    (hwfedges : ∀ e ∈ edges, (∃ a ∈ nodes, a.id = e.source) ∧
      (∃ b ∈ nodes, b.id = e.target))
    (hn : n ∈ nodes) (hm : m ∈ nodes)
    (herr : statusLookup (executeWorkflow handler nodes edges).nodeStatuses
      n.id = some NodeStatus.error)
    (hpath : EdgePathP edges n.id m.id) :
    statusLookup (executeWorkflow handler nodes edges).nodeStatuses m.id =
      some NodeStatus.skipped
    ∧ m.id ∉ (executeWorkflow handler nodes edges).executed
    ∧ (executeWorkflow handler nodes edges).status = "error" := by
  cases hdep : dependencyOrder nodes edges with
  | error msg =>
    exfalso
    unfold executeWorkflow at herr
    rw [hdep] at herr
    simp [statusLookup] at herr
  | ok order =>
    have hexec : (executeWorkflow handler nodes edges).nodeStatuses =
        (runOrder handler edges order initState).statuses ∧
        (executeWorkflow handler nodes edges).executed =
          (runOrder handler edges order initState).executed ∧
        (executeWorkflow handler nodes edges).status =
          (if (runOrder handler edges order initState).statuses.any
              fun p => p.2 == NodeStatus.error then "error"
            else "success") := by
      unfold executeWorkflow
      rw [hdep]
      exact ⟨rfl, rfl, rfl⟩
    obtain ⟨hond, suffix, hord, hcompl, hsub, hsort⟩ :=
      kahnAux_main edges nodes.length nodes [] order hwfids (by simp)
        (by intro a ha; simp at ha) hdep
    have hord2 : order = suffix := by simpa using hord
    subst hord2
    rw [hexec.1] at herr
    have hhaltn : isHalting (statusLookup
        (runOrder handler edges order initState).statuses n.id) = true := by
      rw [herr]
      rfl
    have hgen : ∀ u w, EdgePathP edges u w →
        isHalting (statusLookup
          (runOrder handler edges order initState).statuses u) = true →
        (∃ a ∈ nodes, a.id = u) →
        (∃ b ∈ nodes, b.id = w) →
        statusLookup (runOrder handler edges order initState).statuses w =
          some NodeStatus.skipped ∧
        w ∉ (runOrder handler edges order initState).executed := by
      intro u w hw
      induction hw with
      | single hed =>
        intro hhalt hunode hwnode
        obtain ⟨b, hb, hbid⟩ := hwnode
        have h2 := skip_propagation_step handler edges nodes order hond
          hsort _ b (hcompl b hb) (by rw [hbid]; exact hed) hunode hhalt
        rw [hbid] at h2
        exact h2
      | @snoc v w2 p hed ih =>
        intro hhalt hunode hwnode
        obtain ⟨e, he, hes, het⟩ : ∃ e ∈ edges, e.source = v ∧
            e.target = w2 := by
          simpa only [hasEdgeB, List.any_eq_true, Bool.and_eq_true,
            beq_iff_eq] using hed
        have hvnode : ∃ a ∈ nodes, a.id = v := by
          have h3 := (hwfedges e he).1
          rw [hes] at h3
          exact h3
        have hv := ih hhalt hunode hvnode
        have hvhalt : isHalting (statusLookup
            (runOrder handler edges order initState).statuses v) = true := by
          rw [hv.1]
          rfl
        obtain ⟨b, hb, hbid⟩ := hwnode
        have h2 := skip_propagation_step handler edges nodes order hond
          hsort v b (hcompl b hb) (by rw [hbid]; exact hed) hvnode hvhalt
        rw [hbid] at h2
        exact h2
    have hmain := hgen n.id m.id hpath hhaltn ⟨n, hn, rfl⟩ ⟨m, hm, rfl⟩
    refine ⟨?_, ?_, ?_⟩
    · rw [hexec.1]
      exact hmain.1
    · rw [hexec.2.1]
      exact hmain.2
    · rw [hexec.2.2]
      have hany : ((runOrder handler edges order initState).statuses.any
          fun p => p.2 == NodeStatus.error) = true := by
        unfold statusLookup at herr
        cases hfind : (runOrder handler edges order initState).statuses.find?
            (fun p => p.1 == n.id) with
        | none =>
          rw [hfind] at herr
          exact Option.noConfusion herr
        | some pr =>
          rw [hfind] at herr
          have h4 : (some pr).map (fun p => p.2) = some pr.2 := rfl
          rw [h4] at herr
          have herr2 : pr.2 = NodeStatus.error := Option.some.inj herr
          have hmem := List.mem_of_find?_eq_some hfind
          simp only [List.any_eq_true]
          exact ⟨pr, hmem, by rw [herr2]; rfl⟩
      rw [hany]
      rfl

def demoNodes : List WNode :=
  [⟨"t", "trigger", "Trigger", []⟩, ⟨"f", "action", "Fetch", []⟩,
   ⟨"n1", "action", "Notify", []⟩]

def demoEdges : List WEdge :=
  [⟨"t", "f", none⟩, ⟨"f", "n1", none⟩]

def demoHandler (nd : WNode) (_ : List (String × JsValue)) : StepResult :=
  if nd.id == "f" then ⟨false, [], some "timeout"⟩ else ⟨true, [], none⟩

theorem failure_skips_downstream_witness :
    statusLookup (executeWorkflow demoHandler demoNodes
      demoEdges).nodeStatuses (WNode.id ⟨"n1", "action", "Notify", []⟩) =
      some NodeStatus.skipped
    ∧ (WNode.id ⟨"n1", "action", "Notify", []⟩) ∉
      (executeWorkflow demoHandler demoNodes demoEdges).executed
    ∧ (executeWorkflow demoHandler demoNodes demoEdges).status = "error" :=
  failure_skips_downstream demoHandler demoNodes demoEdges
    ⟨"f", "action", "Fetch", []⟩ ⟨"n1", "action", "Notify", []⟩
    (by decide) (by decide)
    (List.Mem.tail _ (List.Mem.head _))
    (List.Mem.tail _ (List.Mem.tail _ (List.Mem.head _)))
    (by rfl)
    (EdgePathP.single (by rfl))

end WorkflowBuilder
